import Mathlib

/-!
Shallow embedding of the core algorithms of the pptr.dev documentation
viewer: the API lifespan index (`PPTRProduct._initializeAPILifespan`), the
search-item construction (`PPTRSearchItem.createFor*`) and the match
renderer (`renderTokensWithMatches`).

JavaScript `Map` objects (insertion ordered, unique keys, `set` keeping the
original position of an existing key) are modelled as association lists;
JavaScript strings are modelled as `List Char` where character offsets
matter (the renderer) and as `String` where only whole-name equality
matters (the lifespan index).
-/

/-! ## JavaScript `Map` model -/

/-- `Map.prototype.set`: replace the value of an existing key in place,
otherwise append the new entry at the end (JS insertion order). -/
def mapSet {α : Type} : List (String × α) → String → α → List (String × α)
  | [], k, v => [(k, v)]
  | p :: rest, k, v => if p.1 == k then (k, v) :: rest else p :: mapSet rest k v

/-- `Map.prototype.get`: the value at a key, if present. -/
def mapGet {α : Type} : List (String × α) → String → Option α
  | [], _ => none
  | p :: rest, k => if p.1 == k then some p.2 else mapGet rest k

/-- `Map.prototype.has`. -/
def mapHas {α : Type} : List (String × α) → String → Bool
  | [], _ => false
  | p :: rest, k => p.1 == k || mapHas rest k

/-- The key list of a map (JS `Map.prototype.keys()`). -/
def mapKeys {α : Type} (m : List (String × α)) : List String :=
  m.map Prod.fst

/-! ## Lifespan index: data model (`_initializeAPILifespan`, build phase) -/

/-- The classification of one `###`-prefixed line of a release's api text by
the four regexes of `_initializeAPILifespan` (`classRegex`, `eventRegex`,
`methodRegex`, `nsRegex`), tried in the if/else-if priority order of the
source; `other` is a heading matching none of the four. -/
inductive Title where
  | classTitle (name : String)
  | eventTitle (name : String)
  | methodTitle (name : String)
  | nsTitle (name : String)
  | other
deriving DecidableEq, Repr

/-- The `classOutline` object literal of the build phase. -/
structure ClassOutline where
  name : String
  since : String
  untilName : String
  eventsSince : List (String × String)
  methodsSince : List (String × String)
  namespacesSince : List (String × String)
  eventsUntil : List (String × String)
  methodsUntil : List (String × String)
  namespacesUntil : List (String × String)
deriving DecidableEq, Repr

/-- A release as consumed by `_initializeAPILifespan`: its `name` and the
classified `###` headings of its `apiText`. -/
structure Release where
  name : String
  titles : List Title
deriving DecidableEq, Repr

/-- A release after the build phase: `release.classesLifespan`. -/
structure BuiltRelease where
  name : String
  classesLifespan : List (String × ClassOutline)
deriving DecidableEq, Repr

/-- The fresh `classOutline` created at a `### class:` heading. -/
def newClassOutline (className relName : String) : ClassOutline :=
  { name := className, since := relName, untilName := "",
    eventsSince := [], methodsSince := [], namespacesSince := [],
    eventsUntil := [], methodsUntil := [], namespacesUntil := [] }

/-- The `TypeError` raised when a symbol heading is scanned with no open
class: `console.assert(classOutline)` only logs, then the member access on
the `null` outline throws.  The message names the accessed property and
nothing else. -/
structure ScanError where
  message : String
deriving DecidableEq, Repr

/-- The error of reading a property of a `null` `classOutline`. -/
def typeError (property : String) : ScanError :=
  ⟨"TypeError: Cannot read properties of null (reading " ++ property ++ ")"⟩

/-- The heading loop of the build phase of `_initializeAPILifespan`
(source lines 194–226): `outline` is the current `classOutline` (or `null`),
`acc` the `classesLifespan` map built so far. -/
def scanTitles (relName : String) :
    List Title → Option ClassOutline → List (String × ClassOutline) →
    Except ScanError (List (String × ClassOutline))
  | [], some o, acc => .ok (mapSet acc o.name o)
  | [], none, acc => .ok acc
  | .classTitle cn :: ts, outline, acc =>
      let acc' := match outline with
        | some o => mapSet acc o.name o
        | none => acc
      scanTitles relName ts (some (newClassOutline cn relName)) acc'
  | .eventTitle en :: ts, outline, acc =>
      match outline with
      | none => .error (typeError "eventsSince")
      | some o =>
          scanTitles relName ts
            (some { o with eventsSince := mapSet o.eventsSince en relName }) acc
  | .methodTitle mn :: ts, outline, acc =>
      match outline with
      | none => .error (typeError "methodsSince")
      | some o =>
          scanTitles relName ts
            (some { o with methodsSince := mapSet o.methodsSince mn relName }) acc
  | .nsTitle nn :: ts, outline, acc =>
      match outline with
      | none => .error (typeError "namespacesSince")
      | some o =>
          scanTitles relName ts
            (some { o with namespacesSince := mapSet o.namespacesSince nn relName }) acc
  | .other :: ts, outline, acc => scanTitles relName ts outline acc

/-- Build phase for one release. -/
def scanRelease (rel : Release) : Except ScanError BuiltRelease :=
  (scanTitles rel.name rel.titles none []).map (fun m => ⟨rel.name, m⟩)

/-- Build phase for the whole newest-first release list; the first failing
release aborts the construction (the JS exception propagates out of the
`for` loop). -/
def buildAll : List Release → Except ScanError (List BuiltRelease)
  | [] => .ok []
  | r :: rs => do
      let b ← scanRelease r
      let bs ← buildAll rs
      pure (b :: bs)

/-! ## Lifespan index: since-propagation phase (source lines 232–253) -/

/-- The inner carry loop
`for ([name, s] of prev) if (cur.has(name)) cur.set(name, s)`. -/
def carrySince : List (String × String) → List (String × String) → List (String × String)
  | [], cur => cur
  | p :: rest, cur =>
      carrySince rest (if mapHas cur p.1 then mapSet cur p.1 p.2 else cur)

/-- The body of the since loop for one class of `release`, given the
already-updated older neighbour's `classesLifespan`. -/
def sinceUpd (prevM : List (String × ClassOutline)) (className : String)
    (o : ClassOutline) : ClassOutline :=
  match mapGet prevM className with
  | none => o
  | some p =>
      { o with
        since := p.since,
        eventsSince := carrySince p.eventsSince o.eventsSince,
        methodsSince := carrySince p.methodsSince o.methodsSince,
        namespacesSince := carrySince p.namespacesSince o.namespacesSince }

/-- One iteration of the since loop: update `release` from its
immediately-older neighbour `prev` (already final, since the JS loop walks
`i` from `length - 2` down to `0`). -/
def sinceStep (prev r : BuiltRelease) : BuiltRelease :=
  ⟨r.name, r.classesLifespan.map (fun e => (e.1, sinceUpd prev.classesLifespan e.1 e.2))⟩

/-- The whole since-propagation phase on the newest-first list: the oldest
release is untouched, every other release is updated from its
already-updated older neighbour. -/
def sincePhase : List BuiltRelease → List BuiltRelease
  | [] => []
  | r :: rest =>
      match sincePhase rest with
      | [] => [r]
      | prev :: tail => sinceStep prev r :: prev :: tail

/-! ## Lifespan index: until-propagation phase (source lines 255–290) -/

/-- The loop body of `for (name of m.keys()) m.set(name, v)`. -/
def setAllFold (v : String) : List String → List (String × String) → List (String × String)
  | [], acc => acc
  | k :: ks, acc => setAllFold v ks (mapSet acc k v)

/-- `for (name of m.keys()) m.set(name, v)`: rewrite every recorded value. -/
def setAllValues (m : List (String × String)) (v : String) : List (String × String) :=
  setAllFold v (mapKeys m) m

/-- The loop body of the until-phase symbol loop, iterating the key list
of the release's own `*Since` map. -/
def untilFold (nextName : String) (nextUntil nextSince : List (String × String)) :
    List String → List (String × String) → List (String × String)
  | [], acc => acc
  | k :: ks, acc =>
      untilFold nextName nextUntil nextSince ks
        (match mapGet nextUntil k with
         | some v => mapSet acc k v
         | none => if mapHas nextSince k then acc else mapSet acc k nextName)

/-- The symbol loop of the until phase for one `*Since`/`*Until` map pair:
for every name in `sinceM`, copy the newer neighbour's resolved until
version if it has one, otherwise record the neighbour's name if the symbol
vanished there, otherwise leave it unresolved. -/
def untilSymbols (nextName : String) (nextUntil nextSince sinceM untilM :
    List (String × String)) : List (String × String) :=
  untilFold nextName nextUntil nextSince (mapKeys sinceM) untilM

/-- The body of the until loop for one class of `release`, given the
already-updated newer neighbour `next`. -/
def untilOutline (next : BuiltRelease) (className : String)
    (o : ClassOutline) : ClassOutline :=
  match mapGet next.classesLifespan className with
  | none =>
      { o with
        untilName := next.name,
        eventsUntil := setAllValues o.eventsUntil next.name,
        methodsUntil := setAllValues o.methodsUntil next.name,
        namespacesUntil := setAllValues o.namespacesUntil next.name }
  | some no =>
      { o with
        untilName := no.untilName,
        eventsUntil := untilSymbols next.name no.eventsUntil no.eventsSince
          o.eventsSince o.eventsUntil,
        methodsUntil := untilSymbols next.name no.methodsUntil no.methodsSince
          o.methodsSince o.methodsUntil,
        namespacesUntil := untilSymbols next.name no.namespacesUntil no.namespacesSince
          o.namespacesSince o.namespacesUntil }

/-- One iteration of the until loop: update `release` from its
immediately-newer neighbour `next` (already final, since the JS loop walks
`i` upward from `0`). -/
def untilStep (next r : BuiltRelease) : BuiltRelease :=
  ⟨r.name, r.classesLifespan.map (fun e => (e.1, untilOutline next e.1 e.2))⟩

/-- The tail of the until phase: each release is updated from the final
version of its newer neighbour. -/
def untilAux (next : BuiltRelease) : List BuiltRelease → List BuiltRelease
  | [] => []
  | r :: rest =>
      let r' := untilStep next r
      r' :: untilAux r' rest

/-- The whole until-propagation phase on the newest-first list: the newest
release is untouched. -/
def untilPhase : List BuiltRelease → List BuiltRelease
  | [] => []
  | r :: rest => r :: untilAux r rest

/-- `_initializeAPILifespan`: build every release's `classesLifespan`, then
run the since phase, then the until phase.  A build failure (a symbol
heading with no open class) aborts the whole construction. -/
def initializeAPILifespan (rels : List Release) : Except ScanError (List BuiltRelease) :=
  (buildAll rels).map (fun bs => untilPhase (sincePhase bs))

/-- Convenience accessor: the lifespan outline of class `c` in the `i`-th
release (newest first) of the constructed index. -/
def lifespanAt (rels : List Release) (i : Nat) (c : String) : Option ClassOutline :=
  match initializeAPILifespan rels with
  | .error _ => none
  | .ok bs =>
      match bs[i]? with
      | none => none
      | some b => mapGet b.classesLifespan c

/-! ## Match renderer (`renderTokensWithMatches`) and search items -/

/-- One styled token passed to `renderTokensWithMatches`; `text` is a JS
string as a sequence of UTF-16 units, `tagName` the optional element tag. -/
structure Token where
  text : List Char
  tagName : Option String
deriving DecidableEq, Repr

/-- A rendered DOM node: a `Text` node or an element with its children.
A `DocumentFragment` is a plain `List RNode` (appending a fragment to a
node splices its children in). -/
inductive RNode where
  | text (s : List Char)
  | elem (tag : String) (children : List RNode)

/-- `matchesSet.has(p)` for the `Set` built from the `matches` array of
JS numbers. -/
def offsetMatched (ms : List Int) (p : Nat) : Bool :=
  ms.contains (Int.ofNat p)

/-- JS `text.substring(frm, toP)` for `frm ≤ toP ≤ text.length`. -/
def substr (text : List Char) (frm toP : Nat) : List Char :=
  (text.take toP).drop frm

/-- A flushed span: a `search-highlight` element for a highlighted run,
a bare text node otherwise. -/
def mkRun (highlight : Bool) (s : List Char) : RNode :=
  if highlight then .elem "search-highlight" [.text s] else .text s

/-- The inner `for (to = 0; to <= len; ++to)` loop (here `toP`) of
`renderTokensWithMatches`, one token at a time.  The loop always runs
exactly `text.length + 1` iterations, counted down by the first argument;
`frm`, `last` and `acc` are the mutable `from`, `lastInsideHighlight` and
the run list appended to `result` so far. -/
def runsLoop (inSet : Nat → Bool) (offset : Nat) (text : List Char) :
    Nat → Nat → Nat → Bool → List RNode → List RNode
  | 0, _, _, _, acc => acc
  | rem + 1, toP, frm, last, acc =>
      let inside := inSet (toP + offset)
      if inside = last ∧ toP < text.length then
        runsLoop inSet offset text rem (toP + 1) frm last acc
      else
        if frm < toP then
          runsLoop inSet offset text rem (toP + 1) toP inside
            (acc ++ [mkRun last (substr text frm toP)])
        else
          runsLoop inSet offset text rem (toP + 1) frm inside acc

/-- The run list of one token (the children appended to `result`). -/
def tokenRuns (inSet : Nat → Bool) (offset : Nat) (text : List Char) : List RNode :=
  runsLoop inSet offset text (text.length + 1) 0 0 false []

/-- The token loop of the non-empty-matches branch: each tagged token
contributes one element holding its runs, an untagged token's fragment is
spliced into the outer fragment; `offset` advances by each token's
length. -/
def renderLoop (inSet : Nat → Bool) : Nat → List Token → List RNode
  | _, [] => []
  | offset, tok :: rest =>
      (match tok.tagName with
       | some tag => [RNode.elem tag (tokenRuns inSet offset tok.text)]
       | none => tokenRuns inSet offset tok.text)
      ++ renderLoop inSet (offset + tok.text.length) rest

/-- The `!matches.length` fast path: per token, an element whose
`textContent` is the token text (no child for an empty text), or a bare
text node appended to the fragment. -/
def renderNoMatches : List Token → List RNode
  | [] => []
  | tok :: rest =>
      (match tok.tagName with
       | some tag =>
           [RNode.elem tag (if tok.text = [] then [] else [RNode.text tok.text])]
       | none => [RNode.text tok.text])
      ++ renderNoMatches rest

/-- `renderTokensWithMatches(matches, tokens)`: the children of the
returned `DocumentFragment`. -/
def renderTokensWithMatches (ms : List Int) (tokens : List Token) : List RNode :=
  if ms.isEmpty then renderNoMatches tokens
  else renderLoop (offsetMatched ms) 0 tokens

mutual
/-- `Node.textContent` of a rendered node. -/
def nodeText : RNode → List Char
  | .text s => s
  | .elem _ cs => nodesText cs
/-- Concatenated `textContent` of a node list. -/
def nodesText : List RNode → List Char
  | [] => []
  | n :: ns => nodeText n ++ nodesText ns
end

/-- Is this node a highlighted run (`<search-highlight>` with its text)? -/
def isHighlight : RNode → Bool
  | .elem "search-highlight" [.text _] => true
  | _ => false

/-- Total length of the concatenated token texts. -/
def tokensLen : List Token → Nat
  | [] => 0
  | t :: ts => t.text.length + tokensLen ts

/-- Concatenation of the texts of a token list (the canonical text the
tokens must reproduce). -/
def tokensText : List Token → List Char
  | [] => []
  | t :: ts => t.text ++ tokensText ts

/-- The character `'` used by the event canonical text. -/
def quoteChar : Char := Char.ofNat 39

/-- A `PPTRSearchItem` as far as the search index contract is concerned:
its canonical text (`text()`), its icon tag and the ordered title tokens
its `titleRenderer` passes to `renderTokensWithMatches`. -/
structure SearchItemModel where
  text : List Char
  iconTagName : String
  titleTokens : List Token
deriving DecidableEq, Repr

/-- `PPTRSearchItem.createForMethod` (canonical text and title tokens). -/
def createForMethod (loweredName mname args : List Char) : SearchItemModel :=
  { text := loweredName ++ ('.' :: (mname ++ ('(' :: (args ++ [')'])))),
    iconTagName := "pptr-method-icon",
    titleTokens := [
      ⟨loweredName ++ ['.'], some "search-item-api-method-class"⟩,
      ⟨mname ++ ('(' :: (args ++ [')'])), some "search-item-api-method-name"⟩] }

/-- `PPTRSearchItem.createForEvent`. -/
def createForEvent (loweredName ename : List Char) : SearchItemModel :=
  { text := loweredName ++ (".on(".toList ++ (quoteChar :: (ename ++ [quoteChar, ')']))),
    iconTagName := "pptr-event-icon",
    titleTokens := [
      ⟨loweredName ++ ".on(".toList, some "search-item-api-method-class"⟩,
      ⟨quoteChar :: (ename ++ [quoteChar]), some "search-item-api-method-name"⟩,
      ⟨[')'], some "search-item-api-method-class"⟩] }

/-- `PPTRSearchItem.createForNamespace`. -/
def createForNamespace (loweredName nname : List Char) : SearchItemModel :=
  { text := loweredName ++ ('.' :: nname),
    iconTagName := "pptr-ns-icon",
    titleTokens := [
      ⟨loweredName ++ ['.'], some "search-item-api-method-class"⟩,
      ⟨nname, some "search-item-api-method-name"⟩] }

/-- `PPTRSearchItem.createForClass`. -/
def createForClass (className : List Char) : SearchItemModel :=
  { text := className, iconTagName := "pptr-class-icon",
    titleTokens := [⟨className, some "search-item-api-method-name"⟩] }

/-! ## Statement-level predicates -/

/-- A heading list whose first class-relevant heading is an event, method
or namespace heading (a symbol heading before any class heading). -/
def malformed : List Title → Bool
  | [] => false
  | .classTitle _ :: _ => false
  | .eventTitle _ :: _ => true
  | .methodTitle _ :: _ => true
  | .nsTitle _ :: _ => true
  | .other :: ts => malformed ts

/-- Adjacent pairs (newer, immediately older) of a newest-first list. -/
def pairsOf (l : List BuiltRelease) : List (BuiltRelease × BuiltRelease) :=
  l.zip l.tail

/-- The key list of `m` has no duplicates. -/
def keysND {α : Type} (m : List (String × α)) : Prop :=
  (mapKeys m).Nodup

/-- Outline invariant established by the build phase and preserved by the
since phase: all three `*Until` maps are empty and the `*Since` key lists
have no duplicate keys. -/
def outlineInv (o : ClassOutline) : Prop :=
  (o.eventsUntil = [] ∧ o.methodsUntil = [] ∧ o.namespacesUntil = []) ∧
  (keysND o.eventsSince ∧ keysND o.methodsSince ∧ keysND o.namespacesSince)

/-- Per-release form of `outlineInv`. -/
def relInv (b : BuiltRelease) : Prop :=
  ∀ p ∈ b.classesLifespan, outlineInv p.2

/-- Build-phase value invariant: every `since` recorded in a freshly
scanned release is the release's own name. -/
def relVals (b : BuiltRelease) : Prop :=
  ∀ p ∈ b.classesLifespan,
    p.2.since = b.name ∧
    (∀ q ∈ p.2.eventsSince, q.2 = b.name) ∧
    (∀ q ∈ p.2.methodsSince, q.2 = b.name) ∧
    (∀ q ∈ p.2.namespacesSince, q.2 = b.name)

/-- In list `L` there are adjacent releases `N` (newer) and `P` (older)
such that `N` is named `V`, class `c`'s map `sel` lacks symbol `m` at `N`,
and contains it at `P`: the symbol vanished exactly at `V`. -/
def symGone (L : List BuiltRelease) (c m V : String)
    (sel : ClassOutline → List (String × String)) : Prop :=
  ∃ N P, (N, P) ∈ pairsOf L ∧ N.name = V ∧
    (∀ ocV, mapGet N.classesLifespan c = some ocV → mapHas (sel ocV) m = false) ∧
    (∃ ocP, mapGet P.classesLifespan c = some ocP ∧ mapHas (sel ocP) m = true)

/-- Every entry of release `b`'s map `fu` (for any class) already has a
`symGone` explanation inside the list `L`. -/
def untilWitOK (L : List BuiltRelease) (fs fu : ClassOutline → List (String × String))
    (b : BuiltRelease) : Prop :=
  ∀ c oc m V, mapGet b.classesLifespan c = some oc → mapGet (fu oc) m = some V →
    symGone L c m V fs

/-- The running `offset` at which token `k` starts: the total length of
the earlier tokens' texts. -/
def offsetBefore (tokens : List Token) (k : Nat) : Nat :=
  tokensLen (tokens.take k)

/-- Invariant of a single outline during and after the build scan of a
release named `relName`: its own `since` is the release name, its `*Until`
maps are empty, its `*Since` maps have duplicate-free keys and all their
values are the release name. -/
def outlineOk (relName : String) (o : ClassOutline) : Prop :=
  o.since = relName ∧
  (o.eventsUntil = [] ∧ o.methodsUntil = [] ∧ o.namespacesUntil = []) ∧
  (keysND o.eventsSince ∧ keysND o.methodsSince ∧ keysND o.namespacesSince) ∧
  ((∀ q ∈ o.eventsSince, q.2 = relName) ∧ (∀ q ∈ o.methodsSince, q.2 = relName) ∧
   (∀ q ∈ o.namespacesSince, q.2 = relName))

/-- No token is simultaneously untagged and empty-texted (the only shape on
which the two branches of `renderTokensWithMatches` differ). -/
def noEmptyUntagged (tokens : List Token) : Bool :=
  tokens.all (fun t => t.tagName.isSome || !t.text.isEmpty)

/-- The subset of the match offsets that lie inside `[0, tokensLen tokens)`. -/
def inRangeOffsets (ms : List Int) (tokens : List Token) : List Int :=
  ms.filter (fun x => decide (0 ≤ x) && decide (x < (tokensLen tokens : Int)))

/-! ## Lemmas: the JS `Map` model -/

theorem mapGet_mapSet_self {α : Type} (m : List (String × α)) (k : String) (v : α) :
    mapGet (mapSet m k v) k = some v := by
  induction m with
  | nil => simp [mapSet, mapGet]
  | cons p rest ih =>
      by_cases h : p.1 = k
      · simp [mapSet, mapGet, h]
      · simp [mapSet, mapGet, h, ih]

theorem mapGet_mapSet_ne {α : Type} (m : List (String × α)) {k k' : String} (v : α)
    (h : k' ≠ k) : mapGet (mapSet m k v) k' = mapGet m k' := by
  have h2 : ¬ (k = k') := fun e => h e.symm
  induction m with
  | nil => simp [mapSet, mapGet, h2]
  | cons p rest ih =>
      by_cases hp : p.1 = k
      · have h3 : ¬ (p.1 = k') := by rw [hp]; exact h2
        simp [mapSet, mapGet, hp, h2, h3]
      · by_cases hp' : p.1 = k'
        · simp [mapSet, mapGet, hp, hp', h, h2]
        · simp [mapSet, mapGet, hp, hp', h, h2, ih]

theorem mapHas_eq_isSome {α : Type} (m : List (String × α)) (k : String) :
    mapHas m k = (mapGet m k).isSome := by
  induction m with
  | nil => simp [mapHas, mapGet]
  | cons p rest ih =>
      by_cases h : p.1 = k
      · simp [mapHas, mapGet, h]
      · simp [mapHas, mapGet, h, ih]

theorem mapGet_mem {α : Type} {m : List (String × α)} {k : String} {v : α}
    (h : mapGet m k = some v) : (k, v) ∈ m := by
  induction m with
  | nil => simp [mapGet] at h
  | cons p rest ih =>
      obtain ⟨a, b⟩ := p
      by_cases hp : a = k
      · simp [mapGet, hp] at h
        simp [hp, h]
      · simp [mapGet, hp] at h
        exact List.mem_cons_of_mem _ (ih h)

theorem mapHas_iff_keys_mem {α : Type} (m : List (String × α)) (k : String) :
    mapHas m k = true ↔ k ∈ mapKeys m := by
  induction m with
  | nil => simp [mapHas, mapKeys]
  | cons p rest ih =>
      by_cases h : p.1 = k
      · simp [mapHas, mapKeys, h]
      · have h2 : ¬ (k = p.1) := fun e => h e.symm
        simp [mapHas, mapKeys, h, h2, ih]

theorem mapKeys_mapSet_of_has {α : Type} (m : List (String × α)) (k : String) (v : α)
    (h : mapHas m k = true) : mapKeys (mapSet m k v) = mapKeys m := by
  induction m with
  | nil => simp [mapHas] at h
  | cons p rest ih =>
      by_cases hp : p.1 = k
      · simp [mapSet, mapKeys, hp]
      · simp [mapHas, hp] at h
        simp [mapSet, mapKeys, hp]
        have := ih h
        simpa [mapKeys] using this

theorem mapKeys_mapSet_of_not_has {α : Type} (m : List (String × α)) (k : String) (v : α)
    (h : mapHas m k = false) : mapKeys (mapSet m k v) = mapKeys m ++ [k] := by
  induction m with
  | nil => simp [mapSet, mapKeys]
  | cons p rest ih =>
      by_cases hp : p.1 = k
      · simp [mapHas, hp] at h
      · simp [mapHas, hp] at h
        simp [mapSet, mapKeys, hp]
        have := ih h
        simpa [mapKeys] using this

theorem keysND_mapSet {α : Type} (m : List (String × α)) (k : String) (v : α)
    (h : keysND m) : keysND (mapSet m k v) := by
  cases hh : mapHas m k with
  | true => rw [keysND, mapKeys_mapSet_of_has m k v hh]; exact h
  | false =>
      rw [keysND, mapKeys_mapSet_of_not_has m k v hh]
      have hk : k ∉ mapKeys m := by
        intro hmem
        rw [← mapHas_iff_keys_mem] at hmem
        rw [hh] at hmem
        cases hmem
      simpa [List.nodup_append] using ⟨h, hk⟩

theorem mem_mapSet {α : Type} {m : List (String × α)} {k : String} {v : α} {p : String × α}
    (h : p ∈ mapSet m k v) : p ∈ m ∨ p = (k, v) := by
  induction m with
  | nil => simp [mapSet] at h; simp [h]
  | cons q rest ih =>
      by_cases hq : q.1 = k
      · simp [mapSet, hq] at h
        rcases h with h | h
        · right; simp [h]
        · left; exact List.mem_cons_of_mem _ h
      · simp [mapSet, hq] at h
        rcases h with h | h
        · left; simp [h]
        · rcases ih h with h' | h'
          · left; exact List.mem_cons_of_mem _ h'
          · right; exact h'

theorem mapGet_map {α : Type} (g : String → α → α) (l : List (String × α)) (k : String) :
    mapGet (l.map (fun e => (e.1, g e.1 e.2))) k = (mapGet l k).map (g k) := by
  induction l with
  | nil => simp [mapGet]
  | cons p rest ih =>
      by_cases h : p.1 = k
      · simp [mapGet, h]
      · simp [mapGet, h, ih]

theorem mapHas_mapSet_ne {α : Type} (m : List (String × α)) {k k' : String} (v : α)
    (h : k' ≠ k) : mapHas (mapSet m k v) k' = mapHas m k' := by
  rw [mapHas_eq_isSome, mapHas_eq_isSome, mapGet_mapSet_ne m v h]

theorem mapHas_congr_keys {α β : Type} (m1 : List (String × α)) (m2 : List (String × β))
    (k : String) (h : mapKeys m1 = mapKeys m2) : mapHas m1 k = mapHas m2 k := by
  cases h1 : mapHas m1 k <;> cases h2 : mapHas m2 k
  · rfl
  · rw [mapHas_iff_keys_mem] at h2
    have h3 := (mapHas_iff_keys_mem m1 k).mpr (by rw [h]; exact h2)
    rw [h1] at h3
    cases h3
  · rw [mapHas_iff_keys_mem] at h1
    have h3 := (mapHas_iff_keys_mem m2 k).mpr (by rw [← h]; exact h1)
    rw [h2] at h3
    cases h3
  · rfl

/-! ## Lemmas: the since-phase carry loop -/

theorem carrySince_keys (ps cur : List (String × String)) :
    mapKeys (carrySince ps cur) = mapKeys cur := by
  induction ps generalizing cur with
  | nil => rfl
  | cons p rest ih =>
      show mapKeys (carrySince rest _) = _
      cases hh : mapHas cur p.1 with
      | true => simp [hh, ih, mapKeys_mapSet_of_has cur p.1 p.2 hh]
      | false => simp [hh, ih]

theorem carrySince_has (ps cur : List (String × String)) (k : String) :
    mapHas (carrySince ps cur) k = mapHas cur k :=
  mapHas_congr_keys _ _ k (carrySince_keys ps cur)

theorem carrySince_get_not_mem (ps cur : List (String × String)) (k : String)
    (h : k ∉ ps.map Prod.fst) : mapGet (carrySince ps cur) k = mapGet cur k := by
  induction ps generalizing cur with
  | nil => rfl
  | cons p rest ih =>
      simp only [List.map_cons, List.mem_cons] at h
      push_neg at h
      show mapGet (carrySince rest _) k = _
      rw [ih _ h.2]
      cases hh : mapHas cur p.1 with
      | true => simp [hh, mapGet_mapSet_ne cur p.2 h.1]
      | false => simp [hh]

theorem carrySince_get_of_has (ps cur : List (String × String)) (k : String) (v : String)
    (hnd : (ps.map Prod.fst).Nodup) (hc : mapHas cur k = true)
    (hp : mapGet ps k = some v) : mapGet (carrySince ps cur) k = some v := by
  induction ps generalizing cur with
  | nil => simp [mapGet] at hp
  | cons p rest ih =>
      simp only [List.map_cons, List.nodup_cons] at hnd
      by_cases hk : p.1 = k
      · subst hk
        rw [mapGet, if_pos (by simp)] at hp
        show mapGet (carrySince rest _) p.1 = _
        rw [carrySince_get_not_mem rest _ p.1 hnd.1]
        rw [hc]
        simp only [if_true]
        rw [mapGet_mapSet_self]
        exact hp
      · rw [mapGet, if_neg (by simp [hk])] at hp
        show mapGet (carrySince rest _) k = _
        apply ih _ hnd.2 _ hp
        cases hh : mapHas cur p.1 with
        | true => exact (mapHas_mapSet_ne cur p.2 (fun e => hk e.symm)).trans hc
        | false => exact hc

/-! ## Lemmas: the until-phase symbol loop -/

theorem untilFold_get_not_mem (nn : String) (nU nS : List (String × String))
    (ks : List String) (acc : List (String × String)) (k : String) (h : k ∉ ks) :
    mapGet (untilFold nn nU nS ks acc) k = mapGet acc k := by
  induction ks generalizing acc with
  | nil => rfl
  | cons k' rest ih =>
      simp only [List.mem_cons] at h
      push_neg at h
      show mapGet (untilFold nn nU nS rest _) k = _
      cases hg : mapGet nU k' with
      | some v => exact (ih _ h.2).trans (mapGet_mapSet_ne acc v h.1)
      | none =>
          cases hh : mapHas nS k' with
          | true => exact ih _ h.2
          | false => exact (ih _ h.2).trans (mapGet_mapSet_ne acc nn h.1)

theorem untilFold_get_mem (nn : String) (nU nS : List (String × String))
    (ks : List String) (acc : List (String × String)) (k : String)
    (hnd : ks.Nodup) (hk : k ∈ ks) :
    mapGet (untilFold nn nU nS ks acc) k =
      (match mapGet nU k with
       | some v => some v
       | none => if mapHas nS k then mapGet acc k else some nn) := by
  induction ks generalizing acc with
  | nil => cases hk
  | cons k' rest ih =>
      rcases List.nodup_cons.mp hnd with ⟨hk1, hk2⟩
      show mapGet (untilFold nn nU nS rest _) k = _
      by_cases he : k' = k
      · subst he
        cases hg : mapGet nU k' with
        | some v =>
            exact (untilFold_get_not_mem nn nU nS rest _ _ hk1).trans
              (mapGet_mapSet_self acc k' v)
        | none =>
            cases hh : mapHas nS k' with
            | true => exact untilFold_get_not_mem nn nU nS rest _ _ hk1
            | false =>
                exact (untilFold_get_not_mem nn nU nS rest _ _ hk1).trans
                  (mapGet_mapSet_self acc k' nn)
      · have hk' : k ∈ rest := by
          rcases List.mem_cons.mp hk with h | h
          · exact absurd h.symm he
          · exact h
        have hne : k ≠ k' := fun e => he e.symm
        rw [ih _ hk2 hk']
        cases hg : mapGet nU k with
        | some v => rfl
        | none =>
            cases hh : mapHas nS k with
            | false => rfl
            | true =>
                cases hg' : mapGet nU k' with
                | some w => exact mapGet_mapSet_ne acc w hne
                | none =>
                    cases hh' : mapHas nS k' with
                    | true => rfl
                    | false => exact mapGet_mapSet_ne acc nn hne

theorem untilFold_origin (nn : String) (nU nS : List (String × String))
    (ks : List String) (acc : List (String × String)) (k v : String)
    (h : mapGet (untilFold nn nU nS ks acc) k = some v) :
    mapGet acc k = some v ∨
      (k ∈ ks ∧ (mapGet nU k = some v ∨ (v = nn ∧ mapHas nS k = false))) := by
  induction ks generalizing acc with
  | nil => exact Or.inl h
  | cons k' rest ih =>
      replace h : mapGet (untilFold nn nU nS rest _) k = some v := h
      rcases ih _ h with h' | h'
      · by_cases he : k' = k
        · subst he
          cases hg : mapGet nU k' with
          | some w =>
              rw [hg] at h'
              have h2 : some w = some v := (mapGet_mapSet_self acc k' w).symm.trans h'
              exact Or.inr ⟨List.mem_cons_self _ _, Or.inl h2⟩
          | none =>
              rw [hg] at h'
              cases hh : mapHas nS k' with
              | true =>
                  rw [hh] at h'
                  exact Or.inl h'
              | false =>
                  rw [hh] at h'
                  have h2 : some nn = some v := (mapGet_mapSet_self acc k' nn).symm.trans h'
                  have hv : v = nn := by injection h2 with h3; exact h3.symm
                  exact Or.inr ⟨List.mem_cons_self _ _, Or.inr ⟨hv, rfl⟩⟩
        · have hne : k ≠ k' := fun e => he e.symm
          left
          cases hg : mapGet nU k' with
          | some w =>
              rw [hg] at h'
              exact (mapGet_mapSet_ne acc w hne).symm.trans h'
          | none =>
              rw [hg] at h'
              cases hh : mapHas nS k' with
              | true => rw [hh] at h'; exact h'
              | false => rw [hh] at h'; exact (mapGet_mapSet_ne acc nn hne).symm.trans h'
      · exact Or.inr ⟨List.mem_cons_of_mem _ h'.1, h'.2⟩

/-! ## Lemmas: build-phase invariants -/

theorem mapSet_forall {α : Type} {m : List (String × α)} {k : String} {v : α}
    {P : α → Prop} (hm : ∀ p ∈ m, P p.2) (hv : P v) :
    ∀ p ∈ mapSet m k v, P p.2 := by
  intro p hp
  rcases mem_mapSet hp with h | h
  · exact hm p h
  · rw [h]
    exact hv

theorem newClassOutline_ok (cn relName : String) :
    outlineOk relName (newClassOutline cn relName) := by
  simp [newClassOutline, outlineOk, keysND, mapKeys]

theorem scanTitles_ok (relName : String) (ts : List Title) :
    ∀ (outline : Option ClassOutline) (acc m : List (String × ClassOutline)),
    scanTitles relName ts outline acc = .ok m →
    (∀ o, outline = some o → outlineOk relName o) →
    (∀ p ∈ acc, outlineOk relName p.2) →
    ∀ p ∈ m, outlineOk relName p.2 := by
  induction ts with
  | nil =>
      intro outline acc m h ho ha
      cases outline with
      | none =>
          injection h with h
          rw [← h]
          exact ha
      | some o =>
          injection h with h
          rw [← h]
          exact mapSet_forall ha (ho o rfl)
  | cons t rest ih =>
      intro outline acc m h ho ha
      cases t with
      | classTitle cn =>
          refine ih _ _ _ h (fun o' ho' => ?_) ?_
          · injection ho' with ho'
            rw [← ho']
            exact newClassOutline_ok cn relName
          · cases outline with
            | none => exact ha
            | some o => exact mapSet_forall ha (ho o rfl)
      | eventTitle en =>
          cases outline with
          | none => cases h
          | some o =>
              refine ih _ _ _ h (fun o' ho' => ?_) ha
              injection ho' with ho'
              rw [← ho']
              obtain ⟨h1, h2, ⟨h3a, h3b, h3c⟩, ⟨h4a, h4b, h4c⟩⟩ := ho o rfl
              exact ⟨h1, h2, ⟨keysND_mapSet _ _ _ h3a, h3b, h3c⟩,
                ⟨@mapSet_forall _ _ _ _ (fun x => x = relName) h4a rfl, h4b, h4c⟩⟩
      | methodTitle mn =>
          cases outline with
          | none => cases h
          | some o =>
              refine ih _ _ _ h (fun o' ho' => ?_) ha
              injection ho' with ho'
              rw [← ho']
              obtain ⟨h1, h2, ⟨h3a, h3b, h3c⟩, ⟨h4a, h4b, h4c⟩⟩ := ho o rfl
              exact ⟨h1, h2, ⟨h3a, keysND_mapSet _ _ _ h3b, h3c⟩,
                ⟨h4a, @mapSet_forall _ _ _ _ (fun x => x = relName) h4b rfl, h4c⟩⟩
      | nsTitle nn =>
          cases outline with
          | none => cases h
          | some o =>
              refine ih _ _ _ h (fun o' ho' => ?_) ha
              injection ho' with ho'
              rw [← ho']
              obtain ⟨h1, h2, ⟨h3a, h3b, h3c⟩, ⟨h4a, h4b, h4c⟩⟩ := ho o rfl
              exact ⟨h1, h2, ⟨h3a, h3b, keysND_mapSet _ _ _ h3c⟩,
                ⟨h4a, h4b, @mapSet_forall _ _ _ _ (fun x => x = relName) h4c rfl⟩⟩
      | other => exact ih _ _ _ h ho ha

theorem scanRelease_ok {r : Release} {b : BuiltRelease}
    (h : scanRelease r = .ok b) :
    b.name = r.name ∧ ∀ p ∈ b.classesLifespan, outlineOk r.name p.2 := by
  unfold scanRelease at h
  cases hs : scanTitles r.name r.titles none [] with
  | error e => rw [hs] at h; cases h
  | ok m =>
      rw [hs] at h
      injection h with h
      constructor
      · rw [← h]
      · rw [← h]
        exact scanTitles_ok r.name r.titles none [] m hs
          (fun o ho => by cases ho) (by intro p hp; cases hp)

theorem scanRelease_relInv {r : Release} {b : BuiltRelease}
    (h : scanRelease r = .ok b) : relInv b := by
  intro p hp
  obtain ⟨h1, h2, h3, _⟩ := (scanRelease_ok h).2 p hp
  exact ⟨h2, h3⟩

theorem scanRelease_relVals {r : Release} {b : BuiltRelease}
    (h : scanRelease r = .ok b) : relVals b := by
  intro p hp
  obtain ⟨hn, hall⟩ := scanRelease_ok h
  obtain ⟨h1, _, _, h4⟩ := hall p hp
  rw [hn]
  exact ⟨h1, h4⟩

theorem buildAll_get {rels : List Release} {built : List BuiltRelease}
    (h : buildAll rels = .ok built) :
    ∀ (i : Nat) (b : BuiltRelease), built[i]? = some b →
      ∃ r, rels[i]? = some r ∧ scanRelease r = .ok b := by
  induction rels generalizing built with
  | nil =>
      injection h with h
      intro i b hb
      rw [← h] at hb
      simp at hb
  | cons r rs ih =>
      cases hr : scanRelease r with
      | error e => rw [buildAll, hr] at h; cases h
      | ok b0 =>
          cases hbb : buildAll rs with
          | error e => rw [buildAll, hr, hbb] at h; cases h
          | ok bs =>
              rw [buildAll, hr, hbb] at h
              injection h with h
              intro i b hb
              rw [← h] at hb
              cases i with
              | zero =>
                  simp at hb
                  exact ⟨r, by simp, by rw [hb] at hr; exact hr⟩
              | succ j =>
                  simp only [List.getElem?_cons_succ] at hb ⊢
                  exact ih hbb j b hb

theorem buildAll_mem {rels : List Release} {built : List BuiltRelease}
    (h : buildAll rels = .ok built) :
    ∀ b ∈ built, ∃ r ∈ rels, scanRelease r = .ok b := by
  intro b hb
  obtain ⟨i, hi⟩ := List.getElem?_of_mem hb
  obtain ⟨r, hr1, hr2⟩ := buildAll_get h i b hi
  exact ⟨r, List.getElem?_mem hr1, hr2⟩

/-! ## Lemmas: phase characterizations -/

theorem sinceStep_name (prev r : BuiltRelease) : (sinceStep prev r).name = r.name := rfl

theorem untilStep_name (next r : BuiltRelease) : (untilStep next r).name = r.name := rfl

theorem sincePhase_pair (l : List BuiltRelease) :
    ∀ (i : Nat) (R Rp : BuiltRelease), (sincePhase l)[i]? = some R →
      (sincePhase l)[i + 1]? = some Rp →
      ∃ r, l[i]? = some r ∧ R = sinceStep Rp r := by
  induction l with
  | nil =>
      intro i R Rp hR _
      simp [sincePhase] at hR
  | cons r rest ih =>
      intro i R Rp hR hRp
      cases hrest : sincePhase rest with
      | nil =>
          rw [sincePhase, hrest] at hRp
          simp at hRp
      | cons prev tail =>
          rw [sincePhase, hrest] at hR hRp
          cases i with
          | zero =>
              simp only [List.getElem?_cons_zero] at hR
              simp only [List.getElem?_cons_succ, List.getElem?_cons_zero] at hRp
              injection hR with hR
              injection hRp with hRp
              exact ⟨r, by simp, by rw [← hR, ← hRp]⟩
          | succ j =>
              rw [List.getElem?_cons_succ] at hR hRp
              rw [← hrest] at hR hRp
              obtain ⟨r', hr1, hr2⟩ := ih j R Rp hR hRp
              exact ⟨r', by simpa using hr1, hr2⟩

theorem sincePhase_mem (l : List BuiltRelease) :
    ∀ x ∈ sincePhase l, ∃ y ∈ l, x = y ∨ ∃ p, x = sinceStep p y := by
  induction l with
  | nil => intro x hx; simp [sincePhase] at hx
  | cons r rest ih =>
      intro x hx
      cases hrest : sincePhase rest with
      | nil =>
          rw [sincePhase, hrest] at hx
          simp at hx
          exact ⟨r, by simp, Or.inl hx⟩
      | cons prev tail =>
          rw [sincePhase, hrest] at hx
          rcases List.mem_cons.mp hx with h | h
          · exact ⟨r, by simp, Or.inr ⟨prev, h⟩⟩
          · rw [← hrest] at h
            obtain ⟨y, hy1, hy2⟩ := ih x h
            exact ⟨y, List.mem_cons_of_mem _ hy1, hy2⟩

theorem untilAux_pair (l : List BuiltRelease) :
    ∀ (next : BuiltRelease) (i : Nat) (N R : BuiltRelease),
      (next :: untilAux next l)[i]? = some N →
      (next :: untilAux next l)[i + 1]? = some R →
      ∃ r, l[i]? = some r ∧ R = untilStep N r := by
  induction l with
  | nil =>
      intro next i N R _ hR
      cases i <;> simp [untilAux] at hR
  | cons y ys ih =>
      intro next i N R hN hR
      cases i with
      | zero =>
          simp only [untilAux, List.getElem?_cons_zero, List.getElem?_cons_succ] at hN hR
          injection hN with hN
          injection hR with hR
          exact ⟨y, by simp, by rw [← hN, ← hR]⟩
      | succ j =>
          rw [List.getElem?_cons_succ] at hN hR
          rw [show untilAux next (y :: ys) = untilStep next y :: untilAux (untilStep next y) ys
            from rfl] at hN hR
          obtain ⟨r', hr1, hr2⟩ := ih (untilStep next y) j N R hN hR
          exact ⟨r', by simpa using hr1, hr2⟩

theorem untilPhase_pair (l : List BuiltRelease) (i : Nat) (N R : BuiltRelease)
    (hN : (untilPhase l)[i]? = some N) (hR : (untilPhase l)[i + 1]? = some R) :
    ∃ r, l[i + 1]? = some r ∧ R = untilStep N r := by
  cases l with
  | nil => simp [untilPhase] at hN
  | cons x xs =>
      rw [untilPhase] at hN hR
      obtain ⟨r', hr1, hr2⟩ := untilAux_pair xs x i N R hN hR
      exact ⟨r', by simpa using hr1, hr2⟩

theorem sinceStep_relInv (prev r : BuiltRelease) (h : relInv r) :
    relInv (sinceStep prev r) := by
  intro p hp
  unfold sinceStep at hp
  simp only at hp
  obtain ⟨e, he, hpe⟩ := List.mem_map.mp hp
  have hinv := h e he
  rw [← hpe]
  unfold sinceUpd
  cases hg : mapGet prev.classesLifespan e.1 with
  | none => exact hinv
  | some pOut =>
      obtain ⟨⟨u1, u2, u3⟩, ⟨n1, n2, n3⟩⟩ := hinv
      refine ⟨⟨u1, u2, u3⟩, ?_, ?_, ?_⟩
      · rw [keysND, carrySince_keys]
        exact n1
      · rw [keysND, carrySince_keys]
        exact n2
      · rw [keysND, carrySince_keys]
        exact n3

theorem sincePhase_relInv (l : List BuiltRelease) (h : ∀ x ∈ l, relInv x) :
    ∀ x ∈ sincePhase l, relInv x := by
  intro x hx
  obtain ⟨y, hy, hcase⟩ := sincePhase_mem l x hx
  rcases hcase with h1 | ⟨p, h1⟩
  · rw [h1]
    exact h y hy
  · rw [h1]
    exact sinceStep_relInv p y (h y hy)

/-! ## Helper lemmas for the claim theorems -/

theorem carry_get_both (ps cur : List (String × String)) (n : String)
    (hnd : keysND ps) (h1 : mapHas cur n = true) (h2 : mapHas ps n = true) :
    mapGet (carrySince ps cur) n = mapGet ps n := by
  obtain ⟨v, hv⟩ := Option.isSome_iff_exists.mp
    (by rw [← mapHas_eq_isSome]; exact h2)
  rw [carrySince_get_of_has ps cur n v hnd h1 hv, hv]

theorem carry_get_only (ps cur : List (String × String)) (n : String)
    (h2 : mapHas ps n = false) : mapGet (carrySince ps cur) n = mapGet cur n := by
  apply carrySince_get_not_mem
  intro hmem
  have := (mapHas_iff_keys_mem ps n).mpr hmem
  rw [h2] at this
  cases this

theorem all_vals_get (m : List (String × String)) (n nm : String)
    (hall : ∀ q ∈ m, q.2 = nm) (h : mapHas m n = true) : mapGet m n = some nm := by
  obtain ⟨v, hv⟩ := Option.isSome_iff_exists.mp
    (by rw [← mapHas_eq_isSome]; exact h)
  rw [hv]
  have := hall (n, v) (mapGet_mem hv)
  simp at this
  rw [this]

/-- C1: on releases `["v1.1.0","v1.0.0","v0.9.0"]` (newest first) where
class `Page` has method `close` in v0.9.0 and v1.1.0 but not in v1.0.0, the
constructed lifespan index gives the v0.9.0 entry of `Page`
`methodsSince["close"] = "v0.9.0"` and `methodsUntil["close"] = "v1.0.0"`,
and the v1.1.0 entry `methodsSince["close"] = "v1.1.0"` with no
`methodsUntil` entry for `close`. -/
theorem c1_concrete_page_close_lifespan :
    ((lifespanAt
      [⟨"v1.1.0", [.classTitle "Page", .methodTitle "close"]⟩,
       ⟨"v1.0.0", [.classTitle "Page"]⟩,
       ⟨"v0.9.0", [.classTitle "Page", .methodTitle "close"]⟩] 2 "Page").bind
      (fun o => mapGet o.methodsSince "close") = some "v0.9.0") ∧
    ((lifespanAt
      [⟨"v1.1.0", [.classTitle "Page", .methodTitle "close"]⟩,
       ⟨"v1.0.0", [.classTitle "Page"]⟩,
       ⟨"v0.9.0", [.classTitle "Page", .methodTitle "close"]⟩] 2 "Page").bind
      (fun o => mapGet o.methodsUntil "close") = some "v1.0.0") ∧
    ((lifespanAt
      [⟨"v1.1.0", [.classTitle "Page", .methodTitle "close"]⟩,
       ⟨"v1.0.0", [.classTitle "Page"]⟩,
       ⟨"v0.9.0", [.classTitle "Page", .methodTitle "close"]⟩] 0 "Page").bind
      (fun o => mapGet o.methodsSince "close") = some "v1.1.0") ∧
    ((lifespanAt
      [⟨"v1.1.0", [.classTitle "Page", .methodTitle "close"]⟩,
       ⟨"v1.0.0", [.classTitle "Page"]⟩,
       ⟨"v0.9.0", [.classTitle "Page", .methodTitle "close"]⟩] 0 "Page").bind
      (fun o => mapGet o.methodsUntil "close") = none) := by
  refine ⟨by decide, by decide, by decide, by decide⟩

/-- C2: in the since phase (output list newest first, adjacent releases
`R` at `i` and its immediately-older neighbour `Rp` at `i + 1`): a class in
both carries `Rp`'s `since`; a symbol of that class present in both
carries `Rp`'s `*Since` value; a symbol (or whole class) present only in
`R` keeps `R`'s own release name as its `*Since` value. -/
theorem c2_since_propagation
    (rels : List Release) (built : List BuiltRelease) (i : Nat)
    (R Rp : BuiltRelease) (c n : String) (oc op : ClassOutline)
    (hb : buildAll rels = .ok built)
    (hR : (sincePhase built)[i]? = some R)
    (hRp : (sincePhase built)[i + 1]? = some Rp) :
    (mapGet R.classesLifespan c = some oc → mapGet Rp.classesLifespan c = some op →
       oc.since = op.since ∧
       (mapHas oc.eventsSince n = true → mapHas op.eventsSince n = true →
         mapGet oc.eventsSince n = mapGet op.eventsSince n) ∧
       (mapHas oc.methodsSince n = true → mapHas op.methodsSince n = true →
         mapGet oc.methodsSince n = mapGet op.methodsSince n) ∧
       (mapHas oc.namespacesSince n = true → mapHas op.namespacesSince n = true →
         mapGet oc.namespacesSince n = mapGet op.namespacesSince n) ∧
       (mapHas oc.eventsSince n = true → mapHas op.eventsSince n = false →
         mapGet oc.eventsSince n = some R.name) ∧
       (mapHas oc.methodsSince n = true → mapHas op.methodsSince n = false →
         mapGet oc.methodsSince n = some R.name) ∧
       (mapHas oc.namespacesSince n = true → mapHas op.namespacesSince n = false →
         mapGet oc.namespacesSince n = some R.name)) ∧
    (mapGet R.classesLifespan c = some oc → mapGet Rp.classesLifespan c = none →
       oc.since = R.name ∧
       (mapHas oc.eventsSince n = true → mapGet oc.eventsSince n = some R.name) ∧
       (mapHas oc.methodsSince n = true → mapGet oc.methodsSince n = some R.name) ∧
       (mapHas oc.namespacesSince n = true → mapGet oc.namespacesSince n = some R.name)) := by
  obtain ⟨b, hbi, hstep⟩ := sincePhase_pair built i R Rp hR hRp
  obtain ⟨r, hri, hscan⟩ := buildAll_get hb i b hbi
  have hvals : relVals b := scanRelease_relVals hscan
  have hinvRp : relInv Rp := by
    apply sincePhase_relInv built
    · intro x hx
      obtain ⟨r', _, hs'⟩ := buildAll_mem hb x hx
      exact scanRelease_relInv hs'
    · exact List.getElem?_mem hRp
  have hname : R.name = b.name := by rw [hstep]; rfl
  constructor
  · intro hoc hop
    rw [hstep] at hoc
    have hoc' : (mapGet b.classesLifespan c).map (sinceUpd Rp.classesLifespan c) = some oc := by
      rw [← mapGet_map]
      exact hoc
    cases hbo : mapGet b.classesLifespan c with
    | none => rw [hbo] at hoc'; cases hoc'
    | some o =>
        rw [hbo] at hoc'
        have hoc2 : sinceUpd Rp.classesLifespan c o = oc := by
          injection hoc' with h'
        have hocdef : oc = { o with
            since := op.since,
            eventsSince := carrySince op.eventsSince o.eventsSince,
            methodsSince := carrySince op.methodsSince o.methodsSince,
            namespacesSince := carrySince op.namespacesSince o.namespacesSince } := by
          rw [← hoc2]
          unfold sinceUpd
          rw [hop]
        obtain ⟨_, ⟨nd1, nd2, nd3⟩⟩ := hinvRp (c, op) (mapGet_mem hop)
        obtain ⟨_, hv1, hv2, hv3⟩ := hvals (c, o) (mapGet_mem hbo)
        subst hocdef
        refine ⟨rfl, ?_, ?_, ?_, ?_, ?_, ?_⟩
        · intro h1 h2
          exact carry_get_both _ _ n nd1 ((carrySince_has _ _ n).symm.trans h1) h2
        · intro h1 h2
          exact carry_get_both _ _ n nd2 ((carrySince_has _ _ n).symm.trans h1) h2
        · intro h1 h2
          exact carry_get_both _ _ n nd3 ((carrySince_has _ _ n).symm.trans h1) h2
        · intro h1 h2
          show mapGet (carrySince op.eventsSince o.eventsSince) n = some R.name
          rw [carry_get_only _ _ n h2, hname]
          exact all_vals_get _ n b.name hv1 ((carrySince_has _ _ n).symm.trans h1)
        · intro h1 h2
          show mapGet (carrySince op.methodsSince o.methodsSince) n = some R.name
          rw [carry_get_only _ _ n h2, hname]
          exact all_vals_get _ n b.name hv2 ((carrySince_has _ _ n).symm.trans h1)
        · intro h1 h2
          show mapGet (carrySince op.namespacesSince o.namespacesSince) n = some R.name
          rw [carry_get_only _ _ n h2, hname]
          exact all_vals_get _ n b.name hv3 ((carrySince_has _ _ n).symm.trans h1)
  · intro hoc hop
    rw [hstep] at hoc
    have hoc' : (mapGet b.classesLifespan c).map (sinceUpd Rp.classesLifespan c) = some oc := by
      rw [← mapGet_map]
      exact hoc
    cases hbo : mapGet b.classesLifespan c with
    | none => rw [hbo] at hoc'; cases hoc'
    | some o =>
        rw [hbo] at hoc'
        have hoc2 : sinceUpd Rp.classesLifespan c o = oc := by
          injection hoc' with h'
        have hocdef : oc = o := by
          rw [← hoc2]
          unfold sinceUpd
          rw [hop]
        obtain ⟨hs, hv1, hv2, hv3⟩ := hvals (c, o) (mapGet_mem hbo)
        subst hocdef
        rw [hname]
        exact ⟨hs, fun h1 => all_vals_get _ n b.name hv1 h1,
          fun h1 => all_vals_get _ n b.name hv2 h1,
          fun h1 => all_vals_get _ n b.name hv3 h1⟩

theorem c2_since_propagation_witness :
    mapGet (⟨"A", "v1.0.0", "", [], [("m", "v1.0.0"), ("k", "v2.0.0")], [], [], [], []⟩ :
      ClassOutline).methodsSince "k" = some "v2.0.0" := by
  have happ := c2_since_propagation
    [⟨"v2.0.0", [.classTitle "A", .methodTitle "m", .methodTitle "k"]⟩,
     ⟨"v1.0.0", [.classTitle "A", .methodTitle "m"]⟩]
    [⟨"v2.0.0", [("A", ⟨"A", "v2.0.0", "", [], [("m", "v2.0.0"), ("k", "v2.0.0")], [], [], [], []⟩)]⟩,
     ⟨"v1.0.0", [("A", ⟨"A", "v1.0.0", "", [], [("m", "v1.0.0")], [], [], [], []⟩)]⟩]
    0
    ⟨"v2.0.0", [("A", ⟨"A", "v1.0.0", "", [], [("m", "v1.0.0"), ("k", "v2.0.0")], [], [], [], []⟩)]⟩
    ⟨"v1.0.0", [("A", ⟨"A", "v1.0.0", "", [], [("m", "v1.0.0")], [], [], [], []⟩)]⟩
    "A" "k"
    ⟨"A", "v1.0.0", "", [], [("m", "v1.0.0"), ("k", "v2.0.0")], [], [], [], []⟩
    ⟨"A", "v1.0.0", "", [], [("m", "v1.0.0")], [], [], [], []⟩
    rfl rfl rfl
  exact (happ.1 (by decide) (by decide)).2.2.2.2.2.1 (by decide) (by decide)

theorem untilSymbols_eq (nn : String) (nU nS sM uM : List (String × String)) :
    untilSymbols nn nU nS sM uM = untilFold nn nU nS (mapKeys sM) uM := rfl

theorem setAllValues_nil (v : String) : setAllValues [] v = [] := rfl

/-- Shared decomposition of an adjacent pair of the finished pipeline: the
older release's class outline is `untilOutline` of an outline that entered
the until phase satisfying the build/since invariants. -/
theorem untilPair_decompose
    (rels : List Release) (built : List BuiltRelease) (i : Nat)
    (N R : BuiltRelease) (c : String) (oc : ClassOutline)
    (hb : buildAll rels = .ok built)
    (hN : (untilPhase (sincePhase built))[i]? = some N)
    (hR : (untilPhase (sincePhase built))[i + 1]? = some R)
    (hc : mapGet R.classesLifespan c = some oc) :
    ∃ o, oc = untilOutline N c o ∧ outlineInv o := by
  obtain ⟨r, hri, hstep⟩ := untilPhase_pair (sincePhase built) i N R hN hR
  have hrInv : relInv r := by
    apply sincePhase_relInv built
    · intro x hx
      obtain ⟨r', _, hs'⟩ := buildAll_mem hb x hx
      exact scanRelease_relInv hs'
    · exact List.getElem?_mem hri
  rw [hstep] at hc
  have hoc' : (mapGet r.classesLifespan c).map (untilOutline N c) = some oc := by
    rw [← mapGet_map]
    exact hc
  cases hro : mapGet r.classesLifespan c with
  | none => rw [hro] at hoc'; cases hoc'
  | some o =>
      rw [hro] at hoc'
      have hoc2 : untilOutline N c o = oc := by
        injection hoc' with h'
      exact ⟨o, hoc2.symm, hrInv (c, o) (mapGet_mem hro)⟩

/-- C3: in the until phase (output newest first, adjacent releases `N` at
`i` and `R` at `i + 1`): if `R`'s class is absent from `N` then `R`'s
class gets `until = N.name` and every recorded `*Until` value is `N.name`;
if present then the class copies `N`'s `until`, and each symbol in `R`'s
`*Since` copies `N`'s resolved `*Until` value when there is one, else is
set to `N.name` when the symbol is absent from `N`'s `*Since`, else stays
unresolved. -/
theorem c3_until_propagation
    (rels : List Release) (built : List BuiltRelease) (i : Nat)
    (N R : BuiltRelease) (c n v : String) (oc no : ClassOutline)
    (hb : buildAll rels = .ok built)
    (hN : (untilPhase (sincePhase built))[i]? = some N)
    (hR : (untilPhase (sincePhase built))[i + 1]? = some R)
    (hc : mapGet R.classesLifespan c = some oc) :
    (mapGet N.classesLifespan c = none →
       oc.untilName = N.name ∧
       (mapGet oc.eventsUntil n = some v → v = N.name) ∧
       (mapGet oc.methodsUntil n = some v → v = N.name) ∧
       (mapGet oc.namespacesUntil n = some v → v = N.name)) ∧
    (mapGet N.classesLifespan c = some no →
       oc.untilName = no.untilName ∧
       (mapHas oc.eventsSince n = true →
         (mapGet no.eventsUntil n = some v → mapGet oc.eventsUntil n = some v) ∧
         (mapGet no.eventsUntil n = none → mapHas no.eventsSince n = false →
           mapGet oc.eventsUntil n = some N.name) ∧
         (mapGet no.eventsUntil n = none → mapHas no.eventsSince n = true →
           mapGet oc.eventsUntil n = none)) ∧
       (mapHas oc.methodsSince n = true →
         (mapGet no.methodsUntil n = some v → mapGet oc.methodsUntil n = some v) ∧
         (mapGet no.methodsUntil n = none → mapHas no.methodsSince n = false →
           mapGet oc.methodsUntil n = some N.name) ∧
         (mapGet no.methodsUntil n = none → mapHas no.methodsSince n = true →
           mapGet oc.methodsUntil n = none)) ∧
       (mapHas oc.namespacesSince n = true →
         (mapGet no.namespacesUntil n = some v → mapGet oc.namespacesUntil n = some v) ∧
         (mapGet no.namespacesUntil n = none → mapHas no.namespacesSince n = false →
           mapGet oc.namespacesUntil n = some N.name) ∧
         (mapGet no.namespacesUntil n = none → mapHas no.namespacesSince n = true →
           mapGet oc.namespacesUntil n = none))) := by
  obtain ⟨o, hocdef, ⟨⟨e1, e2, e3⟩, ⟨d1, d2, d3⟩⟩⟩ :=
    untilPair_decompose rels built i N R c oc hb hN hR hc
  constructor
  · intro habs
    have hocdef' : oc = { o with
        untilName := N.name,
        eventsUntil := setAllValues o.eventsUntil N.name,
        methodsUntil := setAllValues o.methodsUntil N.name,
        namespacesUntil := setAllValues o.namespacesUntil N.name } := by
      rw [hocdef]
      unfold untilOutline
      rw [habs]
    have hu : oc.untilName = N.name := by rw [hocdef']
    have k1 : oc.eventsUntil = setAllValues o.eventsUntil N.name := by rw [hocdef']
    have k2 : oc.methodsUntil = setAllValues o.methodsUntil N.name := by rw [hocdef']
    have k3 : oc.namespacesUntil = setAllValues o.namespacesUntil N.name := by rw [hocdef']
    refine ⟨hu, ?_, ?_, ?_⟩
    · intro hg
      rw [k1, e1] at hg
      exact Option.noConfusion hg
    · intro hg
      rw [k2, e2] at hg
      exact Option.noConfusion hg
    · intro hg
      rw [k3, e3] at hg
      exact Option.noConfusion hg
  · intro hpres
    have hocdef' : oc = { o with
        untilName := no.untilName,
        eventsUntil := untilSymbols N.name no.eventsUntil no.eventsSince
          o.eventsSince o.eventsUntil,
        methodsUntil := untilSymbols N.name no.methodsUntil no.methodsSince
          o.methodsSince o.methodsUntil,
        namespacesUntil := untilSymbols N.name no.namespacesUntil no.namespacesSince
          o.namespacesSince o.namespacesUntil } := by
      rw [hocdef]
      unfold untilOutline
      rw [hpres]
    have hu : oc.untilName = no.untilName := by rw [hocdef']
    have hs1 : oc.eventsSince = o.eventsSince := by rw [hocdef']
    have hs2 : oc.methodsSince = o.methodsSince := by rw [hocdef']
    have hs3 : oc.namespacesSince = o.namespacesSince := by rw [hocdef']
    have k1 : oc.eventsUntil =
        untilFold N.name no.eventsUntil no.eventsSince (mapKeys o.eventsSince) [] := by
      rw [hocdef']
      show untilSymbols N.name no.eventsUntil no.eventsSince o.eventsSince o.eventsUntil = _
      rw [e1, untilSymbols_eq]
    have k2 : oc.methodsUntil =
        untilFold N.name no.methodsUntil no.methodsSince (mapKeys o.methodsSince) [] := by
      rw [hocdef']
      show untilSymbols N.name no.methodsUntil no.methodsSince o.methodsSince o.methodsUntil = _
      rw [e2, untilSymbols_eq]
    have k3 : oc.namespacesUntil =
        untilFold N.name no.namespacesUntil no.namespacesSince (mapKeys o.namespacesSince) [] := by
      rw [hocdef']
      show untilSymbols N.name no.namespacesUntil no.namespacesSince
        o.namespacesSince o.namespacesUntil = _
      rw [e3, untilSymbols_eq]
    refine ⟨hu, ?_, ?_, ?_⟩
    · intro hhas
      have hmem : n ∈ mapKeys o.eventsSince :=
        (mapHas_iff_keys_mem _ _).mp (by rw [← hs1]; exact hhas)
      have hget := untilFold_get_mem N.name no.eventsUntil no.eventsSince
        (mapKeys o.eventsSince) [] n d1 hmem
      refine ⟨?_, ?_, ?_⟩
      · intro hcopy
        rw [k1, hget, hcopy]
      · intro hnone hh2
        rw [k1, hget, hnone, hh2]
        rfl
      · intro hnone hh2
        rw [k1, hget, hnone, hh2]
        rfl
    · intro hhas
      have hmem : n ∈ mapKeys o.methodsSince :=
        (mapHas_iff_keys_mem _ _).mp (by rw [← hs2]; exact hhas)
      have hget := untilFold_get_mem N.name no.methodsUntil no.methodsSince
        (mapKeys o.methodsSince) [] n d2 hmem
      refine ⟨?_, ?_, ?_⟩
      · intro hcopy
        rw [k2, hget, hcopy]
      · intro hnone hh2
        rw [k2, hget, hnone, hh2]
        rfl
      · intro hnone hh2
        rw [k2, hget, hnone, hh2]
        rfl
    · intro hhas
      have hmem : n ∈ mapKeys o.namespacesSince :=
        (mapHas_iff_keys_mem _ _).mp (by rw [← hs3]; exact hhas)
      have hget := untilFold_get_mem N.name no.namespacesUntil no.namespacesSince
        (mapKeys o.namespacesSince) [] n d3 hmem
      refine ⟨?_, ?_, ?_⟩
      · intro hcopy
        rw [k3, hget, hcopy]
      · intro hnone hh2
        rw [k3, hget, hnone, hh2]
        rfl
      · intro hnone hh2
        rw [k3, hget, hnone, hh2]
        rfl

theorem c3_until_propagation_witness :
    mapGet (⟨"Page", "v0.9.0", "", [], [("close", "v0.9.0")], [], [],
      [("close", "v1.0.0")], []⟩ : ClassOutline).methodsUntil "close" =
      some (⟨"v1.0.0", [("Page", ⟨"Page", "v0.9.0", "", [], [], [], [], [], []⟩)]⟩ :
        BuiltRelease).name := by
  have happ := c3_until_propagation
    [⟨"v1.1.0", [.classTitle "Page", .methodTitle "close"]⟩,
     ⟨"v1.0.0", [.classTitle "Page"]⟩,
     ⟨"v0.9.0", [.classTitle "Page", .methodTitle "close"]⟩]
    [⟨"v1.1.0", [("Page", ⟨"Page", "v1.1.0", "", [], [("close", "v1.1.0")], [], [], [], []⟩)]⟩,
     ⟨"v1.0.0", [("Page", ⟨"Page", "v1.0.0", "", [], [], [], [], [], []⟩)]⟩,
     ⟨"v0.9.0", [("Page", ⟨"Page", "v0.9.0", "", [], [("close", "v0.9.0")], [], [], [], []⟩)]⟩]
    1
    ⟨"v1.0.0", [("Page", ⟨"Page", "v0.9.0", "", [], [], [], [], [], []⟩)]⟩
    ⟨"v0.9.0", [("Page", ⟨"Page", "v0.9.0", "", [], [("close", "v0.9.0")], [], [],
      [("close", "v1.0.0")], []⟩)]⟩
    "Page" "close" "zz"
    ⟨"Page", "v0.9.0", "", [], [("close", "v0.9.0")], [], [], [("close", "v1.0.0")], []⟩
    ⟨"Page", "v0.9.0", "", [], [], [], [], [], []⟩
    rfl rfl rfl rfl
  exact ((happ.2 rfl).2.2.1 rfl).2.1 rfl rfl

/-- C9: when `R`'s class is absent from the immediately newer release `N`,
the finished index gives `R`'s class `until = N.name` but all three
symbol-level `*Until` maps empty: the rewrite loops of the class-vanish
branch only ever iterate maps that are still empty, so no symbol-level
removal version is recorded. -/
theorem c9_class_vanish_until_empty
    (rels : List Release) (built : List BuiltRelease) (i : Nat)
    (N R : BuiltRelease) (c : String) (oc : ClassOutline)
    (hb : buildAll rels = .ok built)
    (hN : (untilPhase (sincePhase built))[i]? = some N)
    (hR : (untilPhase (sincePhase built))[i + 1]? = some R)
    (hc : mapGet R.classesLifespan c = some oc)
    (habs : mapGet N.classesLifespan c = none) :
    oc.untilName = N.name ∧
    oc.eventsUntil = [] ∧ oc.methodsUntil = [] ∧ oc.namespacesUntil = [] := by
  obtain ⟨o, hocdef, ⟨⟨e1, e2, e3⟩, _⟩⟩ :=
    untilPair_decompose rels built i N R c oc hb hN hR hc
  have hocdef' : oc = { o with
      untilName := N.name,
      eventsUntil := setAllValues o.eventsUntil N.name,
      methodsUntil := setAllValues o.methodsUntil N.name,
      namespacesUntil := setAllValues o.namespacesUntil N.name } := by
    rw [hocdef]
    unfold untilOutline
    rw [habs]
  refine ⟨by rw [hocdef'], ?_, ?_, ?_⟩
  · rw [hocdef']
    show setAllValues o.eventsUntil N.name = []
    rw [e1]
    rfl
  · rw [hocdef']
    show setAllValues o.methodsUntil N.name = []
    rw [e2]
    rfl
  · rw [hocdef']
    show setAllValues o.namespacesUntil N.name = []
    rw [e3]
    rfl

theorem c9_class_vanish_until_empty_witness :
    (⟨"A", "v1.0.0", "v2.0.0", [], [("m", "v1.0.0")], [], [], [], []⟩ :
      ClassOutline).untilName =
      (⟨"v2.0.0", [("B", ⟨"B", "v2.0.0", "", [], [], [], [], [], []⟩)]⟩ :
        BuiltRelease).name ∧
    (⟨"A", "v1.0.0", "v2.0.0", [], [("m", "v1.0.0")], [], [], [], []⟩ :
      ClassOutline).eventsUntil = [] ∧
    (⟨"A", "v1.0.0", "v2.0.0", [], [("m", "v1.0.0")], [], [], [], []⟩ :
      ClassOutline).methodsUntil = [] ∧
    (⟨"A", "v1.0.0", "v2.0.0", [], [("m", "v1.0.0")], [], [], [], []⟩ :
      ClassOutline).namespacesUntil = [] := by
  exact c9_class_vanish_until_empty
    [⟨"v2.0.0", [.classTitle "B"]⟩,
     ⟨"v1.0.0", [.classTitle "A", .methodTitle "m"]⟩]
    [⟨"v2.0.0", [("B", ⟨"B", "v2.0.0", "", [], [], [], [], [], []⟩)]⟩,
     ⟨"v1.0.0", [("A", ⟨"A", "v1.0.0", "", [], [("m", "v1.0.0")], [], [], [], []⟩)]⟩]
    0
    ⟨"v2.0.0", [("B", ⟨"B", "v2.0.0", "", [], [], [], [], [], []⟩)]⟩
    ⟨"v1.0.0", [("A", ⟨"A", "v1.0.0", "v2.0.0", [], [("m", "v1.0.0")], [], [], [], []⟩)]⟩
    "A"
    ⟨"A", "v1.0.0", "v2.0.0", [], [("m", "v1.0.0")], [], [], [], []⟩
    rfl rfl rfl rfl rfl

/-! ## Lemmas: malformed heading sequences (C6) -/

theorem scanTitles_malformed (relName : String) (ts : List Title)
    (h : malformed ts = true) (acc : List (String × ClassOutline)) :
    ∃ p, (p = "eventsSince" ∨ p = "methodsSince" ∨ p = "namespacesSince") ∧
      scanTitles relName ts none acc = .error (typeError p) := by
  induction ts with
  | nil => simp [malformed] at h
  | cons t rest ih =>
      cases t with
      | classTitle cn => simp [malformed] at h
      | eventTitle en => exact ⟨"eventsSince", Or.inl rfl, rfl⟩
      | methodTitle mn => exact ⟨"methodsSince", Or.inr (Or.inl rfl), rfl⟩
      | nsTitle nn => exact ⟨"namespacesSince", Or.inr (Or.inr rfl), rfl⟩
      | other => exact ih (by simpa [malformed] using h)

theorem scanTitles_some_ok (relName : String) (ts : List Title) :
    ∀ (o : ClassOutline) (acc : List (String × ClassOutline)),
      ∃ m, scanTitles relName ts (some o) acc = .ok m := by
  induction ts with
  | nil => intro o acc; exact ⟨_, rfl⟩
  | cons t rest ih =>
      intro o acc
      cases t with
      | classTitle cn => exact ih _ _
      | eventTitle en => exact ih _ _
      | methodTitle mn => exact ih _ _
      | nsTitle nn => exact ih _ _
      | other => exact ih _ _

theorem scanTitles_none_ok (relName : String) (ts : List Title)
    (h : malformed ts = false) :
    ∀ acc : List (String × ClassOutline), ∃ m, scanTitles relName ts none acc = .ok m := by
  induction ts with
  | nil => intro acc; exact ⟨acc, rfl⟩
  | cons t rest ih =>
      intro acc
      cases t with
      | classTitle cn => exact scanTitles_some_ok relName rest _ _
      | eventTitle en => simp [malformed] at h
      | methodTitle mn => simp [malformed] at h
      | nsTitle nn => simp [malformed] at h
      | other => exact ih (by simpa [malformed] using h) acc

theorem scanRelease_error_of_malformed (rel : Release) (hm : malformed rel.titles = true) :
    ∃ p, (p = "eventsSince" ∨ p = "methodsSince" ∨ p = "namespacesSince") ∧
      scanRelease rel = .error (typeError p) := by
  obtain ⟨p, hp, herr⟩ := scanTitles_malformed rel.name rel.titles hm []
  exact ⟨p, hp, by unfold scanRelease; rw [herr]; rfl⟩

theorem scanRelease_ok_of_not_malformed (rel : Release) (hm : malformed rel.titles = false) :
    ∃ b, scanRelease rel = .ok b := by
  obtain ⟨m, hok⟩ := scanTitles_none_ok rel.name rel.titles hm []
  exact ⟨⟨rel.name, m⟩, by unfold scanRelease; rw [hok]; rfl⟩

/-- C6 (amended): a release whose heading list has a symbol heading before
any class heading makes the scan of that release fail, and a well-formed
prefix of releases before it cannot save the whole construction: the error
is the generic `TypeError` of reading a property of the `null` outline —
its message names only the accessed property, never the release or the
offending heading — and `_initializeAPILifespan` as a whole fails with
it. -/
theorem c6_malformed_release_fails_construction
    (pre : List Release) (rel : Release) (post : List Release)
    (hm : malformed rel.titles = true)
    (hpre : ∀ r ∈ pre, malformed r.titles = false) :
    ∃ p, (p = "eventsSince" ∨ p = "methodsSince" ∨ p = "namespacesSince") ∧
      scanRelease rel = .error (typeError p) ∧
      initializeAPILifespan (pre ++ rel :: post) = .error (typeError p) := by
  obtain ⟨p, hp, herr⟩ := scanRelease_error_of_malformed rel hm
  refine ⟨p, hp, herr, ?_⟩
  have hbuild : buildAll (pre ++ rel :: post) = .error (typeError p) := by
    induction pre with
    | nil =>
        show buildAll (rel :: post) = _
        rw [buildAll, herr]
        rfl
    | cons r pre' ih =>
        obtain ⟨b, hbok⟩ := scanRelease_ok_of_not_malformed r
          (hpre r (List.mem_cons_self _ _))
        have ih' := ih (fun r' hr' => hpre r' (List.mem_cons_of_mem _ hr'))
        show buildAll (r :: (pre' ++ rel :: post)) = _
        rw [buildAll, hbok, ih']
        rfl
  unfold initializeAPILifespan
  rw [hbuild]
  rfl

theorem c6_malformed_release_fails_construction_witness :
    ∃ p, (p = "eventsSince" ∨ p = "methodsSince" ∨ p = "namespacesSince") ∧
      scanRelease ⟨"v1.0.0", [.eventTitle "close"]⟩ = .error (typeError p) ∧
      initializeAPILifespan
        [⟨"v2.0.0", [.classTitle "A"]⟩, ⟨"v1.0.0", [.eventTitle "close"]⟩] =
        .error (typeError p) := by
  exact c6_malformed_release_fails_construction
    [⟨"v2.0.0", [.classTitle "A"]⟩] ⟨"v1.0.0", [.eventTitle "close"]⟩ []
    rfl (by decide)

/-- C6 (counterexample): two releases with different names and different
offending headings fail with the very same error value, so the scan error
identifies neither the release nor the offending heading, contradicting
the claim that the failure carries a descriptive structured error naming
both. -/
theorem c6_counterexample_error_not_descriptive :
    scanRelease ⟨"v1.0.0", [.eventTitle "close"]⟩ =
      scanRelease ⟨"v2.0.0", [.eventTitle "open"]⟩ ∧
    scanRelease ⟨"v1.0.0", [.eventTitle "close"]⟩ = .error (typeError "eventsSince") ∧
    ("v1.0.0" : String) ≠ "v2.0.0" ∧
    Title.eventTitle "close" ≠ Title.eventTitle "open" := by
  exact ⟨rfl, rfl, by decide, by decide⟩

/-! ## Lemmas: origin of resolved `until` entries (C7) -/

theorem mem_pairsOf_cons (x : BuiltRelease) (l : List BuiltRelease)
    (p : BuiltRelease × BuiltRelease) (h : p ∈ pairsOf l) : p ∈ pairsOf (x :: l) := by
  cases l with
  | nil => cases h
  | cons y t => exact List.mem_cons_of_mem _ h

theorem mem_pairsOf_append (done : List BuiltRelease) (l2 : List BuiltRelease)
    (a b : BuiltRelease) : (a, b) ∈ pairsOf (done ++ a :: b :: l2) := by
  induction done with
  | nil => exact List.mem_cons_self _ _
  | cons x done' ih => exact mem_pairsOf_cons x _ _ ih

/-- The until-phase tail preserves, for every release it produces, the
existence of a `symGone` explanation (inside the fixed final output
`Out`) for every resolved symbol-level `until` entry.  Stated generically
in the pair of projections `fs`/`fu` selecting one `*Since`/`*Until` map
kind. -/
theorem untilAux_wit (fs fu : ClassOutline → List (String × String))
    (hsn : ∀ (next : BuiltRelease) (c : String) (o : ClassOutline),
      mapGet next.classesLifespan c = none →
      fu (untilOutline next c o) = setAllValues (fu o) next.name ∧
      fs (untilOutline next c o) = fs o)
    (hss : ∀ (next : BuiltRelease) (c : String) (o no : ClassOutline),
      mapGet next.classesLifespan c = some no →
      fu (untilOutline next c o) =
        untilFold next.name (fu no) (fs no) (mapKeys (fs o)) (fu o) ∧
      fs (untilOutline next c o) = fs o)
    (l : List BuiltRelease) :
    ∀ (next : BuiltRelease) (done Out : List BuiltRelease),
      Out = done ++ next :: untilAux next l →
      (∀ x ∈ l, ∀ p ∈ x.classesLifespan, fu p.2 = []) →
      untilWitOK Out fs fu next →
      ∀ x ∈ next :: untilAux next l, untilWitOK Out fs fu x := by
  induction l with
  | nil =>
      intro next done Out hOut hl hnext x hx
      rcases List.mem_cons.mp hx with h | h
      · rw [h]
        exact hnext
      · cases h
  | cons y ys ih =>
      intro next done Out hOut hl hnext x hx
      have hwit' : untilWitOK Out fs fu (untilStep next y) := by
        intro c oc m V hoc hgu
        have hoc' : (mapGet y.classesLifespan c).map (untilOutline next c) = some oc := by
          rw [← mapGet_map]
          exact hoc
        cases hro : mapGet y.classesLifespan c with
        | none => rw [hro] at hoc'; cases hoc'
        | some o =>
            rw [hro] at hoc'
            have hoc2 : untilOutline next c o = oc := by
              injection hoc' with h'
            have hfuo : fu o = [] :=
              hl y (List.mem_cons_self _ _) (c, o) (mapGet_mem hro)
            cases hNg : mapGet next.classesLifespan c with
            | none =>
                obtain ⟨hfu1, _⟩ := hsn next c o hNg
                rw [← hoc2, hfu1, hfuo] at hgu
                exact Option.noConfusion hgu
            | some no =>
                obtain ⟨hfu1, hfs1⟩ := hss next c o no hNg
                rw [← hoc2, hfu1, hfuo] at hgu
                rcases untilFold_origin next.name (fu no) (fs no)
                    (mapKeys (fs o)) [] m V hgu with hcase | ⟨hmem, hcase⟩
                · exact Option.noConfusion hcase
                · rcases hcase with hcopy | ⟨hV, habs⟩
                  · exact hnext c no m V hNg hcopy
                  · refine ⟨next, untilStep next y, ?_, hV.symm, ?_, ?_⟩
                    · rw [hOut]
                      exact mem_pairsOf_append done _ next (untilStep next y)
                    · intro ocV hocV
                      rw [hNg] at hocV
                      injection hocV with h''
                      rw [← h'']
                      exact habs
                    · refine ⟨oc, hoc, ?_⟩
                      rw [← hoc2, hfs1]
                      exact (mapHas_iff_keys_mem _ _).mpr hmem
      rcases List.mem_cons.mp hx with h | h
      · rw [h]
        exact hnext
      · have hOut' : Out = (done ++ [next]) ++
            untilStep next y :: untilAux (untilStep next y) ys := by
          rw [hOut]
          simp
          rfl
        have hl' : ∀ x ∈ ys, ∀ p ∈ x.classesLifespan, fu p.2 = [] :=
          fun x hx => hl x (List.mem_cons_of_mem _ hx)
        exact ih (untilStep next y) (done ++ [next]) Out hOut' hl' hwit' x h

/-- C7: every resolved symbol-level `until` entry `V` in the constructed
index names an actual adjacent pair of scanned releases: the release named
`V`, at which the class either lacks the symbol or is itself absent, and
its immediately-older neighbour, in which the symbol is present in the
class. -/
theorem c7_resolved_until_is_removal_point
    (rels : List Release) (built : List BuiltRelease) (R : BuiltRelease)
    (c m V : String) (oc : ClassOutline)
    (hb : buildAll rels = .ok built)
    (hR : R ∈ untilPhase (sincePhase built))
    (hc : mapGet R.classesLifespan c = some oc) :
    (mapGet oc.eventsUntil m = some V →
      symGone (untilPhase (sincePhase built)) c m V ClassOutline.eventsSince) ∧
    (mapGet oc.methodsUntil m = some V →
      symGone (untilPhase (sincePhase built)) c m V ClassOutline.methodsSince) ∧
    (mapGet oc.namespacesUntil m = some V →
      symGone (untilPhase (sincePhase built)) c m V ClassOutline.namespacesSince) := by
  have hspInv : ∀ x ∈ sincePhase built, relInv x := by
    apply sincePhase_relInv built
    intro x hx
    obtain ⟨r', _, hs'⟩ := buildAll_mem hb x hx
    exact scanRelease_relInv hs'
  cases hsp : sincePhase built with
  | nil =>
      rw [hsp] at hR
      cases hR
  | cons x xs =>
      rw [hsp] at hR hspInv
      have hseed : ∀ (fu : ClassOutline → List (String × String)),
          (∀ o : ClassOutline, outlineInv o → fu o = []) →
          ∀ fs, untilWitOK (untilPhase (x :: xs)) fs fu x := by
        intro fu hfu fs c' oc' m' V' hoc' hgu'
        have : fu oc' = [] :=
          hfu oc' (hspInv x (List.mem_cons_self _ _) (c', oc') (mapGet_mem hoc'))
        rw [this] at hgu'
        cases hgu'
      have hl : ∀ (fu : ClassOutline → List (String × String)),
          (∀ o : ClassOutline, outlineInv o → fu o = []) →
          ∀ z ∈ xs, ∀ p ∈ z.classesLifespan, fu p.2 = [] := by
        intro fu hfu z hz p hp
        exact hfu p.2 (hspInv z (List.mem_cons_of_mem _ hz) p hp)
      refine ⟨?_, ?_, ?_⟩
      · intro hgu
        have hall := untilAux_wit ClassOutline.eventsSince ClassOutline.eventsUntil
          (fun next c' o hn => by unfold untilOutline; rw [hn]; exact ⟨rfl, rfl⟩)
          (fun next c' o no hn => by unfold untilOutline; rw [hn]; exact ⟨rfl, rfl⟩)
          xs x [] (untilPhase (x :: xs)) rfl
          (hl ClassOutline.eventsUntil (fun o ho => ho.1.1) )
          (hseed ClassOutline.eventsUntil (fun o ho => ho.1.1) ClassOutline.eventsSince)
        exact hall R hR c oc m V hc hgu
      · intro hgu
        have hall := untilAux_wit ClassOutline.methodsSince ClassOutline.methodsUntil
          (fun next c' o hn => by unfold untilOutline; rw [hn]; exact ⟨rfl, rfl⟩)
          (fun next c' o no hn => by unfold untilOutline; rw [hn]; exact ⟨rfl, rfl⟩)
          xs x [] (untilPhase (x :: xs)) rfl
          (hl ClassOutline.methodsUntil (fun o ho => ho.1.2.1))
          (hseed ClassOutline.methodsUntil (fun o ho => ho.1.2.1) ClassOutline.methodsSince)
        exact hall R hR c oc m V hc hgu
      · intro hgu
        have hall := untilAux_wit ClassOutline.namespacesSince ClassOutline.namespacesUntil
          (fun next c' o hn => by unfold untilOutline; rw [hn]; exact ⟨rfl, rfl⟩)
          (fun next c' o no hn => by unfold untilOutline; rw [hn]; exact ⟨rfl, rfl⟩)
          xs x [] (untilPhase (x :: xs)) rfl
          (hl ClassOutline.namespacesUntil (fun o ho => ho.1.2.2))
          (hseed ClassOutline.namespacesUntil (fun o ho => ho.1.2.2) ClassOutline.namespacesSince)
        exact hall R hR c oc m V hc hgu

theorem c7_resolved_until_is_removal_point_witness :
    symGone
      [⟨"v1.1.0", [("Page", ⟨"Page", "v0.9.0", "", [], [("close", "v1.1.0")], [], [], [], []⟩)]⟩,
       ⟨"v1.0.0", [("Page", ⟨"Page", "v0.9.0", "", [], [], [], [], [], []⟩)]⟩,
       ⟨"v0.9.0", [("Page", ⟨"Page", "v0.9.0", "", [], [("close", "v0.9.0")], [], [],
         [("close", "v1.0.0")], []⟩)]⟩]
      "Page" "close" "v1.0.0" ClassOutline.methodsSince := by
  exact (c7_resolved_until_is_removal_point
    [⟨"v1.1.0", [.classTitle "Page", .methodTitle "close"]⟩,
     ⟨"v1.0.0", [.classTitle "Page"]⟩,
     ⟨"v0.9.0", [.classTitle "Page", .methodTitle "close"]⟩]
    [⟨"v1.1.0", [("Page", ⟨"Page", "v1.1.0", "", [], [("close", "v1.1.0")], [], [], [], []⟩)]⟩,
     ⟨"v1.0.0", [("Page", ⟨"Page", "v1.0.0", "", [], [], [], [], [], []⟩)]⟩,
     ⟨"v0.9.0", [("Page", ⟨"Page", "v0.9.0", "", [], [("close", "v0.9.0")], [], [], [], []⟩)]⟩]
    ⟨"v0.9.0", [("Page", ⟨"Page", "v0.9.0", "", [], [("close", "v0.9.0")], [], [],
      [("close", "v1.0.0")], []⟩)]⟩
    "Page" "close" "v1.0.0"
    ⟨"Page", "v0.9.0", "", [], [("close", "v0.9.0")], [], [], [("close", "v1.0.0")], []⟩
    rfl (by decide) rfl).2.1 rfl

/-! ## Lemmas: match renderer text (C4) -/

theorem nodesText_append (a b : List RNode) :
    nodesText (a ++ b) = nodesText a ++ nodesText b := by
  induction a with
  | nil => simp [nodesText]
  | cons n ns ih => simp [nodesText, ih]

theorem nodeText_mkRun (hl : Bool) (s : List Char) : nodeText (mkRun hl s) = s := by
  cases hl <;> simp [mkRun, nodeText, nodesText]

theorem substr_drop (text : List Char) (frm toP : Nat) (h1 : frm ≤ toP)
    (h2 : toP ≤ text.length) :
    substr text frm toP ++ text.drop toP = text.drop frm := by
  unfold substr
  rw [List.drop_take]
  have h3 : text.drop toP = List.drop (toP - frm) (List.drop frm text) := by
    rw [List.drop_drop]
    congr 1
    omega
  rw [h3, List.take_append_drop]

theorem runsLoop_text (inSet : Nat → Bool) (offset : Nat) (text : List Char) :
    ∀ (rem toP frm : Nat) (last : Bool) (acc : List RNode),
      toP + rem = text.length + 1 → frm ≤ toP → toP ≤ text.length →
      nodesText (runsLoop inSet offset text rem toP frm last acc) =
        nodesText acc ++ text.drop frm := by
  intro rem
  induction rem with
  | zero =>
      intro toP frm last acc h1 _ h3
      omega
  | succ rem' ih =>
      intro toP frm last acc h1 h2 h3
      show nodesText (if inSet (toP + offset) = last ∧ toP < text.length then _ else _) = _
      by_cases hcond : inSet (toP + offset) = last ∧ toP < text.length
      · rw [if_pos hcond]
        exact ih (toP + 1) frm last acc (by omega) (by omega) (by omega)
      · rw [if_neg hcond]
        by_cases hfrm : frm < toP
        · rw [if_pos hfrm]
          by_cases hend : toP = text.length
          · have hrem : rem' = 0 := by omega
            rw [hrem]
            show nodesText (acc ++ [mkRun last (substr text frm toP)]) = _
            rw [nodesText_append]
            simp [nodesText, nodeText_mkRun]
            rw [← substr_drop text frm toP (by omega) h3]
            subst hend
            simp [List.drop_length]
          · rw [ih (toP + 1) toP _ _ (by omega) (by omega) (by omega)]
            rw [nodesText_append]
            simp [nodesText, nodeText_mkRun, List.append_assoc]
            rw [substr_drop text frm toP (by omega) h3]
        · rw [if_neg hfrm]
          have hfe : frm = toP := by omega
          by_cases hend : toP = text.length
          · have hrem : rem' = 0 := by omega
            rw [hrem]
            show nodesText acc = _
            subst hfe
            subst hend
            simp [List.drop_length]
          · exact ih (toP + 1) frm _ acc (by omega) (by omega) (by omega)

theorem tokenRuns_text (inSet : Nat → Bool) (offset : Nat) (text : List Char) :
    nodesText (tokenRuns inSet offset text) = text := by
  unfold tokenRuns
  rw [runsLoop_text inSet offset text (text.length + 1) 0 0 false [] (by omega)
    (by omega) (by omega)]
  simp [nodesText]

theorem renderLoop_text (inSet : Nat → Bool) (tokens : List Token) :
    ∀ offset : Nat, nodesText (renderLoop inSet offset tokens) = tokensText tokens := by
  induction tokens with
  | nil => intro offset; simp [renderLoop, nodesText, tokensText]
  | cons tok rest ih =>
      intro offset
      show nodesText ((match tok.tagName with
        | some tag => [RNode.elem tag (tokenRuns inSet offset tok.text)]
        | none => tokenRuns inSet offset tok.text) ++
          renderLoop inSet (offset + tok.text.length) rest) = _
      rw [nodesText_append, ih]
      cases tok.tagName with
      | some tag =>
          show nodesText [RNode.elem tag (tokenRuns inSet offset tok.text)] ++ _ = _
          simp [nodesText, nodeText, tokenRuns_text, tokensText]
      | none =>
          show nodesText (tokenRuns inSet offset tok.text) ++ _ = _
          rw [tokenRuns_text]
          rfl

theorem renderNoMatches_text (tokens : List Token) :
    nodesText (renderNoMatches tokens) = tokensText tokens := by
  induction tokens with
  | nil => simp [renderNoMatches, nodesText, tokensText]
  | cons tok rest ih =>
      show nodesText ((match tok.tagName with
        | some tag =>
            [RNode.elem tag (if tok.text = [] then [] else [RNode.text tok.text])]
        | none => [RNode.text tok.text]) ++ renderNoMatches rest) = _
      rw [nodesText_append, ih]
      cases tok.tagName with
      | some tag =>
          by_cases he : tok.text = []
          · simp [he, nodesText, nodeText, tokensText]
          · simp [he, nodesText, nodeText, tokensText]
      | none => simp [nodesText, nodeText, tokensText]

/-- C4: for every token list and every matched-offset list, concatenating
the text content of all nodes produced by `renderTokensWithMatches`, in
order, is exactly the concatenation of the tokens' texts. -/
theorem c4_render_round_trip (ms : List Int) (tokens : List Token) :
    nodesText (renderTokensWithMatches ms tokens) = tokensText tokens := by
  unfold renderTokensWithMatches
  by_cases he : ms.isEmpty
  · rw [if_pos he]
    exact renderNoMatches_text tokens
  · rw [if_neg he]
    exact renderLoop_text (offsetMatched ms) tokens 0

/-! ## Lemmas: highlight run structure (C5) -/

theorem runsLoop_append (inSet : Nat → Bool) (offset : Nat) (text : List Char) :
    ∀ (rem toP frm : Nat) (last : Bool) (acc : List RNode),
      runsLoop inSet offset text rem toP frm last acc =
        acc ++ runsLoop inSet offset text rem toP frm last [] := by
  intro rem
  induction rem with
  | zero => intro toP frm last acc; simp [runsLoop]
  | succ rem' ih =>
      intro toP frm last acc
      show (if _ then _ else _) = acc ++ (if _ then _ else _)
      by_cases hcond : inSet (toP + offset) = last ∧ toP < text.length
      · rw [if_pos hcond, if_pos hcond]
        exact ih toP.succ frm last acc
      · rw [if_neg hcond, if_neg hcond]
        by_cases hfrm : frm < toP
        · rw [if_pos hfrm, if_pos hfrm]
          rw [ih toP.succ toP _ (acc ++ [mkRun last (substr text frm toP)])]
          rw [ih toP.succ toP _ ([] ++ [mkRun last (substr text frm toP)])]
          simp [List.append_assoc]
        · rw [if_neg hfrm, if_neg hfrm]
          exact ih toP.succ frm _ acc

theorem isHighlight_mkRun (hl : Bool) (s : List Char) :
    isHighlight (mkRun hl s) = hl := by
  cases hl <;> rfl

theorem chain_append_single {R : RNode → RNode → Prop} (l : List RNode) (a : RNode)
    (hl : List.Chain' R l) (ha : ∀ r ∈ l.getLast?, R r a) :
    List.Chain' R (l ++ [a]) := by
  rw [List.chain'_append]
  exact ⟨hl, List.chain'_singleton a, fun x hx y hy => by
    simp at hy
    rw [← hy]
    exact ha x hx⟩

theorem runsLoop_alt (inSet : Nat → Bool) (offset : Nat) (text : List Char) :
    ∀ (rem toP frm : Nat) (last : Bool) (acc : List RNode),
      toP + rem = text.length + 1 → frm ≤ toP → toP ≤ text.length →
      List.Chain' (fun a b => isHighlight b = !isHighlight a) acc →
      (acc = [] ∨ (frm < toP ∧ ∀ r ∈ acc.getLast?, isHighlight r = !last)) →
      List.Chain' (fun a b => isHighlight b = !isHighlight a)
        (runsLoop inSet offset text rem toP frm last acc) := by
  intro rem
  induction rem with
  | zero => intro toP frm last acc h1 _ h3 hacc _; omega
  | succ rem' ih =>
      intro toP frm last acc h1 h2 h3 hacc hinv
      show List.Chain' _ (if _ then _ else _)
      by_cases hcond : inSet (toP + offset) = last ∧ toP < text.length
      · rw [if_pos hcond]
        refine ih toP.succ frm last acc (by omega) (by omega) (by omega) hacc ?_
        rcases hinv with h | ⟨hf, hr⟩
        · exact Or.inl h
        · exact Or.inr ⟨by omega, hr⟩
      · rw [if_neg hcond]
        by_cases hfrm : frm < toP
        · rw [if_pos hfrm]
          have hacc' : List.Chain' (fun a b => isHighlight b = !isHighlight a)
              (acc ++ [mkRun last (substr text frm toP)]) := by
            refine chain_append_single acc _ hacc ?_
            intro r hr
            rcases hinv with h | ⟨_, hlast⟩
            · rw [h] at hr
              cases hr
            · rw [isHighlight_mkRun, hlast r hr, Bool.not_not]
          by_cases hend : toP = text.length
          · have hrem : rem' = 0 := by omega
            rw [hrem]
            exact hacc'
          · have hin : inSet (toP + offset) ≠ last := by
              intro hh
              exact hcond ⟨hh, by omega⟩
            refine ih toP.succ toP _ _ (by omega) (by omega) (by omega) hacc' ?_
            refine Or.inr ⟨by omega, ?_⟩
            intro r hr
            rw [List.getLast?_concat] at hr
            simp at hr
            rw [← hr, isHighlight_mkRun]
            cases hli : inSet (toP + offset) with
            | true =>
                rw [hli] at hin
                cases hlast : last with
                | true => exact absurd rfl (by rw [hlast] at hin; exact hin)
                | false => rfl
            | false =>
                rw [hli] at hin
                cases hlast : last with
                | true => rfl
                | false => exact absurd rfl (by rw [hlast] at hin; exact hin)
        · rw [if_neg hfrm]
          have hae : acc = [] := by
            rcases hinv with h | ⟨hf, _⟩
            · exact h
            · omega
          by_cases hend : toP = text.length
          · have hrem : rem' = 0 := by omega
            rw [hrem]
            exact hacc
          · exact ih toP.succ frm _ acc (by omega) (by omega) (by omega) hacc
              (Or.inl hae)

theorem tokenRuns_alt (inSet : Nat → Bool) (offset : Nat) (text : List Char) :
    List.Chain' (fun a b => isHighlight b = !isHighlight a)
      (tokenRuns inSet offset text) := by
  unfold tokenRuns
  exact runsLoop_alt inSet offset text (text.length + 1) 0 0 false []
    (by omega) (by omega) (by omega) List.chain'_nil (Or.inl rfl)

theorem runsLoop_last_highlight (inSet : Nat → Bool) (offset : Nat) (text : List Char)
    (hL : inSet (text.length - 1 + offset) = true) :
    ∀ (rem toP frm : Nat) (last : Bool) (acc : List RNode),
      toP + rem = text.length + 1 → frm ≤ toP → toP ≤ text.length →
      frm < text.length →
      (toP = 0 ∧ last = false ∨ 0 < toP ∧ last = inSet (toP - 1 + offset)) →
      ∃ s, (runsLoop inSet offset text rem toP frm last acc).getLast? =
        some (RNode.elem "search-highlight" [RNode.text s]) := by
  intro rem
  induction rem with
  | zero => intro toP frm last acc h1 _ h3 _ _; omega
  | succ rem' ih =>
      intro toP frm last acc h1 h2 h3 hfl hlast
      simp only [runsLoop]
      by_cases hcond : inSet (toP + offset) = last ∧ toP < text.length
      · rw [if_pos hcond]
        refine ih toP.succ frm last acc (by omega) (by omega) (by omega) hfl ?_
        refine Or.inr ⟨by omega, ?_⟩
        have : toP.succ - 1 = toP := by omega
        rw [this, ← hcond.1]
      · rw [if_neg hcond]
        by_cases hend : toP = text.length
        · have hrem : rem' = 0 := by omega
          have hfrm : frm < toP := by omega
          rw [if_pos hfrm, hrem]
          show ∃ s, (acc ++ [mkRun last (substr text frm toP)]).getLast? = _
          have hlv : last = true := by
            rcases hlast with ⟨h0, _⟩ | ⟨hpos, hval⟩
            · omega
            · rw [hval, hend]
              exact hL
          rw [hlv, List.getLast?_concat]
          exact ⟨substr text frm toP, rfl⟩
        · have hinv' : 0 < toP.succ ∧ inSet (toP + offset) =
              inSet (toP.succ - 1 + offset) := by
            constructor
            · omega
            · have : toP.succ - 1 = toP := by omega
              rw [this]
          by_cases hfrm : frm < toP
          · rw [if_pos hfrm]
            exact ih toP.succ toP _ _ (by omega) (by omega) (by omega) (by omega)
              (Or.inr ⟨hinv'.1, hinv'.2.symm ▸ rfl⟩)
          · rw [if_neg hfrm]
            exact ih toP.succ frm _ acc (by omega) (by omega) (by omega) hfl
              (Or.inr ⟨hinv'.1, hinv'.2.symm ▸ rfl⟩)

theorem runsLoop_head_hl (inSet : Nat → Bool) (offset : Nat) (text : List Char) :
    ∀ (rem toP frm : Nat),
      toP + rem = text.length + 1 → frm < toP → toP ≤ text.length →
      ∃ s, (runsLoop inSet offset text rem toP frm true []).head? =
        some (RNode.elem "search-highlight" [RNode.text s]) := by
  intro rem
  induction rem with
  | zero => intro toP frm h1 _ h3; omega
  | succ rem' ih =>
      intro toP frm h1 h2 h3
      simp only [runsLoop]
      by_cases hcond : inSet (toP + offset) = true ∧ toP < text.length
      · rw [if_pos hcond]
        exact ih toP.succ frm (by omega) (by omega) (by omega)
      · rw [if_neg hcond]
        rw [if_pos h2]
        rw [runsLoop_append inSet offset text rem' toP.succ toP _ _]
        refine ⟨substr text frm toP, ?_⟩
        show (mkRun true (substr text frm toP) ::
          runsLoop inSet offset text rem' toP.succ toP _ []).head? = _
        rfl

theorem tokenRuns_last_highlight (inSet : Nat → Bool) (offset : Nat) (text : List Char)
    (hne : text ≠ []) (hL : inSet (text.length - 1 + offset) = true) :
    ∃ s, (tokenRuns inSet offset text).getLast? =
      some (RNode.elem "search-highlight" [RNode.text s]) := by
  unfold tokenRuns
  exact runsLoop_last_highlight inSet offset text hL (text.length + 1) 0 0 false []
    (by omega) (by omega) (by omega) (List.length_pos.mpr hne) (Or.inl ⟨rfl, rfl⟩)

theorem tokenRuns_head_highlight (inSet : Nat → Bool) (offset : Nat) (text : List Char)
    (hne : text ≠ []) (h0 : inSet (0 + offset) = true) :
    ∃ s, (tokenRuns inSet offset text).head? =
      some (RNode.elem "search-highlight" [RNode.text s]) := by
  have hlen : 0 < text.length := List.length_pos.mpr hne
  have hstep : tokenRuns inSet offset text =
      runsLoop inSet offset text text.length 1 0 (inSet (0 + offset)) [] := by
    unfold tokenRuns
    show (if inSet (0 + offset) = false ∧ 0 < text.length then _ else _) = _
    rw [h0]
    rw [if_neg (by simp)]
    rw [if_neg (by omega)]
  rw [hstep, h0]
  exact runsLoop_head_hl inSet offset text text.length 1 0 (by omega) (by omega)
    (by omega)

theorem tokensLen_append (a b : List Token) :
    tokensLen (a ++ b) = tokensLen a + tokensLen b := by
  induction a with
  | nil => simp [tokensLen]
  | cons t ts ih => simp [tokensLen, ih]; omega

theorem offsetBefore_succ (tokens : List Token) (k : Nat) (t : Token)
    (hk : tokens[k]? = some t) :
    offsetBefore tokens (k + 1) = offsetBefore tokens k + t.text.length := by
  unfold offsetBefore
  rw [List.take_succ, hk]
  rw [tokensLen_append]
  rfl

theorem chain_pair {R : RNode → RNode → Prop} (l : List RNode) (h : List.Chain' R l)
    (i : Nat) (x y : RNode) (hx : l[i]? = some x) (hy : l[i + 1]? = some y) : R x y := by
  obtain ⟨h1, e1⟩ := List.getElem?_eq_some.mp hx
  obtain ⟨h2, e2⟩ := List.getElem?_eq_some.mp hy
  have := List.chain'_iff_get.mp h i (by omega)
  rw [List.get_eq_getElem, List.get_eq_getElem] at this
  rw [← e1, ← e2]
  convert this using 2

/-- C5: within one token, the rendered runs strictly alternate, so two
adjacent matched offsets of the same token are never split into two
adjacent highlight nodes; and a match run contiguous across a token
boundary yields a separate highlight node in each token — the earlier
token's runs end with one and the later token's runs begin with one — and
the non-empty-matches renderer is exactly the per-token loop over
`tokenRuns`, so the two nodes are never merged. -/
theorem c5_highlight_run_structure
    (ms : List Int) (tokens : List Token) (k i : Nat) (t t1 t2 : Token) (x y : RNode) :
    (tokens[k]? = some t →
      (tokenRuns (offsetMatched ms) (offsetBefore tokens k) t.text)[i]? = some x →
      (tokenRuns (offsetMatched ms) (offsetBefore tokens k) t.text)[i + 1]? = some y →
      ¬(isHighlight x = true ∧ isHighlight y = true)) ∧
    (tokens[k]? = some t1 → tokens[k + 1]? = some t2 →
      t1.text ≠ [] → t2.text ≠ [] →
      offsetMatched ms (offsetBefore tokens (k + 1) - 1) = true →
      offsetMatched ms (offsetBefore tokens (k + 1)) = true →
      (∃ s, (tokenRuns (offsetMatched ms) (offsetBefore tokens k) t1.text).getLast? =
        some (RNode.elem "search-highlight" [RNode.text s])) ∧
      (∃ s, (tokenRuns (offsetMatched ms) (offsetBefore tokens (k + 1)) t2.text).head? =
        some (RNode.elem "search-highlight" [RNode.text s]))) ∧
    (ms ≠ [] → renderTokensWithMatches ms tokens =
      renderLoop (offsetMatched ms) 0 tokens) := by
  refine ⟨?_, ?_, ?_⟩
  · intro _ hx hy hboth
    have halt := tokenRuns_alt (offsetMatched ms) (offsetBefore tokens k) t.text
    have := chain_pair _ halt i x y hx hy
    rw [hboth.1, hboth.2] at this
    cases this
  · intro hk1 hk2 hne1 hne2 hm1 hm2
    have hofs : offsetBefore tokens (k + 1) =
        offsetBefore tokens k + t1.text.length := offsetBefore_succ tokens k t1 hk1
    constructor
    · apply tokenRuns_last_highlight (offsetMatched ms) (offsetBefore tokens k) t1.text hne1
      have hlen : 0 < t1.text.length := List.length_pos.mpr hne1
      have : t1.text.length - 1 + offsetBefore tokens k =
          offsetBefore tokens (k + 1) - 1 := by omega
      rw [this]
      exact hm1
    · apply tokenRuns_head_highlight (offsetMatched ms) (offsetBefore tokens (k + 1))
        t2.text hne2
      rw [Nat.zero_add]
      exact hm2
  · intro hms
    unfold renderTokensWithMatches
    rw [if_neg (by simpa using hms)]

theorem c5_highlight_run_structure_witness :
    (¬(isHighlight (RNode.text ['a']) = true ∧
       isHighlight (RNode.elem "search-highlight" [RNode.text ['b']]) = true)) ∧
    ((∃ s, (tokenRuns (offsetMatched [1, 2])
        (offsetBefore [⟨['a', 'b'], some "t"⟩, ⟨['c', 'd'], none⟩] 0)
        (['a', 'b'] : List Char)).getLast? =
        some (RNode.elem "search-highlight" [RNode.text s])) ∧
     (∃ s, (tokenRuns (offsetMatched [1, 2])
        (offsetBefore [⟨['a', 'b'], some "t"⟩, ⟨['c', 'd'], none⟩] 1)
        (['c', 'd'] : List Char)).head? =
        some (RNode.elem "search-highlight" [RNode.text s]))) ∧
    (renderTokensWithMatches [1, 2] [⟨['a', 'b'], some "t"⟩, ⟨['c', 'd'], none⟩] =
      renderLoop (offsetMatched [1, 2]) 0 [⟨['a', 'b'], some "t"⟩, ⟨['c', 'd'], none⟩]) := by
  have happ := c5_highlight_run_structure [1, 2]
    [⟨['a', 'b'], some "t"⟩, ⟨['c', 'd'], none⟩] 0 0
    ⟨['a', 'b'], some "t"⟩ ⟨['a', 'b'], some "t"⟩ ⟨['c', 'd'], none⟩
    (RNode.text ['a']) (RNode.elem "search-highlight" [RNode.text ['b']])
  exact ⟨happ.1 rfl rfl rfl,
    happ.2.1 rfl rfl (by decide) (by decide) rfl rfl,
    happ.2.2 (by decide)⟩

/-! ## Lemmas: out-of-range match offsets (C10) -/

theorem offsetMatched_iff (ms : List Int) (p : Nat) :
    offsetMatched ms p = true ↔ (Int.ofNat p) ∈ ms := by
  simp [offsetMatched]

theorem runsLoop_congr (i1 i2 : Nat → Bool) (offset : Nat) (text : List Char)
    (hagree : ∀ p, offset ≤ p → p < offset + text.length → i1 p = i2 p) :
    ∀ (rem toP frm : Nat) (last : Bool) (acc : List RNode),
      toP + rem = text.length + 1 → toP ≤ text.length →
      runsLoop i1 offset text rem toP frm last acc =
        runsLoop i2 offset text rem toP frm last acc := by
  intro rem
  induction rem with
  | zero => intro toP frm last acc _ _; rfl
  | succ rem' ih =>
      intro toP frm last acc h1 h2
      by_cases hend : toP = text.length
      · have hrem : rem' = 0 := by omega
        subst hrem
        have hc1 : ¬(i1 (toP + offset) = last ∧ toP < text.length) :=
          fun hc => absurd hc.2 (by omega)
        have hc2 : ¬(i2 (toP + offset) = last ∧ toP < text.length) :=
          fun hc => absurd hc.2 (by omega)
        simp only [runsLoop]
        rw [if_neg hc1, if_neg hc2]
      · have heq : i1 (toP + offset) = i2 (toP + offset) :=
          hagree (toP + offset) (by omega) (by omega)
        simp only [runsLoop]
        rw [← heq]
        by_cases hcond : i1 (toP + offset) = last ∧ toP < text.length
        · rw [if_pos hcond, if_pos hcond]
          exact ih toP.succ frm last acc (by omega) (by omega)
        · rw [if_neg hcond, if_neg hcond]
          by_cases hfrm : frm < toP
          · rw [if_pos hfrm, if_pos hfrm]
            exact ih toP.succ toP _ _ (by omega) (by omega)
          · rw [if_neg hfrm, if_neg hfrm]
            exact ih toP.succ frm _ acc (by omega) (by omega)

theorem renderLoop_congr (i1 i2 : Nat → Bool) (tokens : List Token) :
    ∀ offset : Nat,
      (∀ p, offset ≤ p → p < offset + tokensLen tokens → i1 p = i2 p) →
      renderLoop i1 offset tokens = renderLoop i2 offset tokens := by
  induction tokens with
  | nil => intro offset _; rfl
  | cons tok rest ih =>
      intro offset hagree
      have hruns : tokenRuns i1 offset tok.text = tokenRuns i2 offset tok.text := by
        unfold tokenRuns
        exact runsLoop_congr i1 i2 offset tok.text
          (fun p hp1 hp2 => hagree p hp1 (by
            show p < offset + (tok.text.length + tokensLen rest)
            omega))
          (tok.text.length + 1) 0 0 false [] (by omega) (by omega)
      have hrest : renderLoop i1 (offset + tok.text.length) rest =
          renderLoop i2 (offset + tok.text.length) rest := by
        apply ih
        intro p hp1 hp2
        refine hagree p (by omega) ?_
        show p < offset + (tok.text.length + tokensLen rest)
        omega
      show (match tok.tagName with
        | some tag => [RNode.elem tag (tokenRuns i1 offset tok.text)]
        | none => tokenRuns i1 offset tok.text) ++
          renderLoop i1 (offset + tok.text.length) rest = _
      rw [hruns, hrest]
      rfl

theorem runsLoop_no_match (inSet : Nat → Bool) (offset : Nat) (text : List Char)
    (hno : ∀ p, offset ≤ p → p < offset + text.length → inSet p = false) :
    ∀ (rem toP : Nat), toP + rem = text.length + 1 → toP ≤ text.length →
      runsLoop inSet offset text rem toP 0 false [] =
        (if text = [] then [] else [RNode.text text]) := by
  intro rem
  induction rem with
  | zero => intro toP h1 h2; omega
  | succ rem' ih =>
      intro toP h1 h2
      by_cases hend : toP = text.length
      · have hrem : rem' = 0 := by omega
        subst hrem
        simp only [runsLoop]
        rw [if_neg (by intro hc; omega)]
        by_cases hfrm : (0 : Nat) < toP
        · rw [if_pos hfrm]
          have htx : text ≠ [] := by
            intro he
            rw [he] at hend
            simp at hend
            omega
          rw [if_neg htx]
          show [] ++ [mkRun false (substr text 0 toP)] = _
          rw [hend]
          simp [mkRun, substr]
        · rw [if_neg hfrm]
          have htx : text = [] := by
            have : toP = 0 := by omega
            rw [this] at hend
            exact (List.length_eq_zero.mp hend.symm)
          rw [if_pos htx]
      · have hin : inSet (toP + offset) = false :=
          hno (toP + offset) (by omega) (by omega)
        simp only [runsLoop]
        rw [hin]
        rw [if_pos ⟨rfl, by omega⟩]
        exact ih toP.succ (by omega) (by omega)

theorem renderLoop_no_match (inSet : Nat → Bool) (tokens : List Token) :
    ∀ offset : Nat,
      (∀ p, offset ≤ p → p < offset + tokensLen tokens → inSet p = false) →
      noEmptyUntagged tokens = true →
      renderLoop inSet offset tokens = renderNoMatches tokens := by
  induction tokens with
  | nil => intro offset _ _; rfl
  | cons tok rest ih =>
      intro offset hno hok
      have hruns : tokenRuns inSet offset tok.text =
          (if tok.text = [] then [] else [RNode.text tok.text]) := by
        unfold tokenRuns
        exact runsLoop_no_match inSet offset tok.text
          (fun p hp1 hp2 => hno p hp1 (by
            show p < offset + (tok.text.length + tokensLen rest)
            omega))
          (tok.text.length + 1) 0 (by omega) (by omega)
      have hok' : noEmptyUntagged rest = true := by
        have h2 : ((tok.tagName.isSome || !tok.text.isEmpty) &&
            noEmptyUntagged rest) = true := hok
        simp only [Bool.and_eq_true] at h2
        exact h2.2
      have hrest := ih (offset + tok.text.length)
        (fun p hp1 hp2 => hno p (by omega) (by
          show p < offset + (tok.text.length + tokensLen rest)
          omega))
        hok'
      show (match tok.tagName with
        | some tag => [RNode.elem tag (tokenRuns inSet offset tok.text)]
        | none => tokenRuns inSet offset tok.text) ++
          renderLoop inSet (offset + tok.text.length) rest =
        (match tok.tagName with
         | some tag =>
             [RNode.elem tag (if tok.text = [] then [] else [RNode.text tok.text])]
         | none => [RNode.text tok.text]) ++ renderNoMatches rest
      rw [hruns, hrest]
      cases htag : tok.tagName with
      | some tag => rfl
      | none =>
          have hne : tok.text ≠ [] := by
            intro he
            have hfalse : noEmptyUntagged (tok :: rest) = false := by
              simp [noEmptyUntagged, htag, he]
            rw [hok] at hfalse
            cases hfalse
          rw [if_neg hne]

/-- C10 (amended): `renderTokensWithMatches` is total, and offsets outside
`[0, tokensLen tokens)` never affect a rendered run: the output equals the
output on the in-range subset whenever the match list is empty, or the
in-range subset is non-empty, or no token is both untagged and
empty-texted.  (In the one remaining corner — a non-empty match list whose
offsets are all out of range together with an untagged empty token — the
fast path emits an empty text node the loop does not, see the
counterexample.) -/
theorem c10_out_of_range_offsets_ignored
    (ms : List Int) (tokens : List Token)
    (h : ms = [] ∨ inRangeOffsets ms tokens ≠ [] ∨ noEmptyUntagged tokens = true) :
    renderTokensWithMatches ms tokens =
      renderTokensWithMatches (inRangeOffsets ms tokens) tokens := by
  by_cases hms : ms = []
  · subst hms
    rfl
  · have hlhs : renderTokensWithMatches ms tokens =
        renderLoop (offsetMatched ms) 0 tokens := by
      unfold renderTokensWithMatches
      rw [if_neg (by simpa using hms)]
    by_cases hfil : inRangeOffsets ms tokens = []
    · have hok : noEmptyUntagged tokens = true := by
        rcases h with h | h | h
        · exact absurd h hms
        · exact absurd hfil h
        · exact h
      rw [hlhs, hfil]
      have hrhs : renderTokensWithMatches [] tokens = renderNoMatches tokens := rfl
      rw [hrhs]
      apply renderLoop_no_match (offsetMatched ms) tokens 0 _ hok
      intro p _ hp2
      cases hov : offsetMatched ms p with
      | false => rfl
      | true =>
          exfalso
          have hpm : (Int.ofNat p) ∈ ms := (offsetMatched_iff ms p).mp hov
          have hmem : (Int.ofNat p) ∈ inRangeOffsets ms tokens := by
            apply List.mem_filter.mpr
            refine ⟨hpm, ?_⟩
            simp only [Bool.and_eq_true, decide_eq_true_eq]
            constructor
            · exact Int.ofNat_nonneg p
            · rw [Nat.zero_add] at hp2
              rw [Int.ofNat_eq_coe]
              exact_mod_cast hp2
          rw [hfil] at hmem
          cases hmem
    · have hrhs : renderTokensWithMatches (inRangeOffsets ms tokens) tokens =
          renderLoop (offsetMatched (inRangeOffsets ms tokens)) 0 tokens := by
        unfold renderTokensWithMatches
        rw [if_neg (by simpa using hfil)]
      rw [hlhs, hrhs]
      apply renderLoop_congr
      intro p hp1 hp2
      rw [Nat.zero_add] at hp2
      cases hov : offsetMatched ms p with
      | true =>
          have hpm : (Int.ofNat p) ∈ ms := (offsetMatched_iff ms p).mp hov
          have hmem : (Int.ofNat p) ∈ inRangeOffsets ms tokens := by
            apply List.mem_filter.mpr
            refine ⟨hpm, ?_⟩
            simp only [Bool.and_eq_true, decide_eq_true_eq]
            exact ⟨Int.ofNat_nonneg p, by rw [Int.ofNat_eq_coe]; exact_mod_cast hp2⟩
          exact ((offsetMatched_iff _ p).mpr hmem).symm
      | false =>
          cases hov2 : offsetMatched (inRangeOffsets ms tokens) p with
          | false => rfl
          | true =>
              exfalso
              have hpm : (Int.ofNat p) ∈ inRangeOffsets ms tokens :=
                (offsetMatched_iff _ p).mp hov2
              have : (Int.ofNat p) ∈ ms := (List.mem_filter.mp hpm).1
              rw [(offsetMatched_iff ms p).mpr this] at hov
              cases hov

/-- C10 (counterexample): with the single out-of-range offset `-1` and one
untagged empty-texted token, the renderer takes the non-empty-matches loop
and emits nothing, while on the in-range subset (which is empty) the fast
path emits an empty text node — the two outputs differ, so the output is
not always identical to the output on the in-range subset. -/
theorem c10_counterexample_branch_mismatch :
    renderTokensWithMatches [-1] [⟨[], none⟩] ≠
      renderTokensWithMatches (inRangeOffsets [-1] [⟨[], none⟩]) [⟨[], none⟩] := by
  intro h
  have h' : ([] : List RNode) = [RNode.text []] := h
  cases h'

theorem c10_out_of_range_offsets_ignored_witness :
    renderTokensWithMatches [1, 99] [⟨['a', 'b'], some "x"⟩] =
      renderTokensWithMatches (inRangeOffsets [1, 99] [⟨['a', 'b'], some "x"⟩])
        [⟨['a', 'b'], some "x"⟩] := by
  exact c10_out_of_range_offsets_ignored [1, 99] [⟨['a', 'b'], some "x"⟩]
    (Or.inr (Or.inl (by decide)))

/-- C8: for each `PPTRSearchItem` creator, the ordered title tokens handed
to `renderTokensWithMatches` concatenate exactly to the item's canonical
text, and that canonical text follows the per-kind format: class name
alone for classes, `lowered.name(args)` for methods, `lowered.on('name')`
for events, `lowered.name` for namespaces. -/
theorem c8_search_item_token_concat
    (loweredName className mname ename nname args : List Char) :
    (tokensText (createForMethod loweredName mname args).titleTokens =
       (createForMethod loweredName mname args).text ∧
     (createForMethod loweredName mname args).text =
       loweredName ++ ['.'] ++ mname ++ ['('] ++ args ++ [')']) ∧
    (tokensText (createForEvent loweredName ename).titleTokens =
       (createForEvent loweredName ename).text ∧
     (createForEvent loweredName ename).text =
       loweredName ++ ".on(".toList ++ [quoteChar] ++ ename ++ [quoteChar] ++ [')']) ∧
    (tokensText (createForNamespace loweredName nname).titleTokens =
       (createForNamespace loweredName nname).text ∧
     (createForNamespace loweredName nname).text = loweredName ++ ['.'] ++ nname) ∧
    (tokensText (createForClass className).titleTokens =
       (createForClass className).text ∧
     (createForClass className).text = className) := by
  refine ⟨⟨?_, ?_⟩, ⟨?_, ?_⟩, ⟨?_, ?_⟩, ⟨?_, ?_⟩⟩
  · simp [createForMethod, tokensText, List.append_assoc]
  · simp [createForMethod, List.append_assoc]
  · simp [createForEvent, tokensText, List.append_assoc]
  · simp [createForEvent, List.append_assoc]
  · simp [createForNamespace, tokensText, List.append_assoc]
  · simp [createForNamespace, List.append_assoc]
  · simp [createForClass, tokensText]
  · simp [createForClass]
